import Mathlib

/-!
# Verification of the local-rag retrieval pipeline

A shallow embedding, in Lean, of the core retrieval components of the
local-rag repository, together with theorems settling the specification
claims about them.

Embedded components (file for file):

* `TextChunker` — `src/parsers/chunker.py`: code-block detection, the
  sliding-window `chunk` loop and `chunk_hierarchical` grouping.
* `ChromaVectorStore` — `src/vectorstore/chroma_store.py`:
  `_sanitize_collection_name` and `get_neighbor_chunks` over a model of a
  Chroma collection's stored records.
* `MCPManager` — `src/mcp/manager.py`: the adapter registry and
  `search_context` routing.
* `QueryService` — `src/services/query_service.py`: adaptive top-k,
  local retrieval, MCP retrieval with error absorption, parent-content
  substitution and context fusion.
* `BookIngestionService` (chunking part) — `src/services/ingestion_service.py`
  lines 73–77.

Modelling conventions:

* Python `str` values that the code manipulates character by character are
  `List Char`; opaque strings (ids, contents, queries) are `String`.
* Python `int` is `Int` where a value can go negative (positions inside the
  chunk loop, sequence numbers), `Nat` where it cannot.
* `uuid4()` is modelled by a fresh-id counter: successive calls yield
  successive numbers, so distinct calls give distinct ids, which is the only
  property the code relies on.
* Embedding vectors (`list[float]`) are opaque `List Int`: the embedded code
  never computes with the components. Float expressions the code does compute
  (`chunk_size * 0.2`, `chunk_size * 1.5`, `collection_size * (p / 100)`) are
  modelled with exact integer/rational arithmetic; at the magnitudes involved
  the double-precision results coincide with the exact ones.
* The nearest-neighbor search itself (`collection.query`) and the LLM and
  embedding services are external collaborators; they enter the model as
  oracle function fields of `QueryService`.
* `while` loops are embedded as fuel-bounded recursion with fuel larger than
  the iteration count of every terminating run.
-/

/-- Stable insertion used to model Python's (stable) `sorted`: `a` is placed
before the first element `b` with `le a b`, so among key-equal elements the
original order is kept. -/
def insertLe {α : Type} (le : α → α → Bool) (a : α) : List α → List α
  | [] => [a]
  | b :: bs => if le a b then a :: b :: bs else b :: insertLe le a bs

/-- Stable sort by the boolean comparison `le` (models Python `sorted` with a
key; structurally recursive so that concrete runs reduce in the kernel). -/
def stableSort {α : Type} (le : α → α → Bool) : List α → List α
  | [] => []
  | x :: xs => insertLe le x (stableSort le xs)

namespace TextChunker

/-- A detected code block: `(start_pos, end_pos, language)` as returned by
`TextChunker._detect_code_blocks`. -/
abbrev Block := Nat × Nat × Option (List Char)

/-- Python regex `\w` (ASCII part): letters, digits, underscore. -/
def isWordChar (c : Char) : Bool := c.isAlphanum || c == '_'

/-- `pat` occurs in `t` at position `i`. -/
def occursAt (t pat : List Char) (i : Nat) : Bool := pat.isPrefixOf (t.drop i)

/-- Smallest position `k ≥ p` at which `pat` occurs in `t` (regex scanning for
the non-greedy closing delimiter). -/
def findFrom (t pat : List Char) (p : Nat) : Option Nat :=
  ((List.range (t.length + 1)).filter (fun k => decide (p ≤ k) && occursAt t pat k)).head?

def backtickFence : List Char := ['`', '`', '`']

def fenceClose : List Char := ['\n', '`', '`', '`']

/-- `re.finditer(r"```(\w*)\n(.*?)\n```", text, re.DOTALL)`: scan left to
right; at a position starting with ``` take the maximal word run as the
language, require a newline, then the earliest `\n``` ` closes the block
(non-greedy body); scanning resumes after the match. -/
def fencedFrom (t : List Char) : Nat → Nat → List Block
  | _, 0 => []
  | i, fuel+1 =>
    if i < t.length then
      if occursAt t backtickFence i then
        let lang := (t.drop (i + 3)).takeWhile isWordChar
        let j := i + 3 + lang.length
        if occursAt t ['\n'] j then
          match findFrom t fenceClose (j + 1) with
          | some k =>
            (i, k + 4, if lang.isEmpty then none else some lang) :: fencedFrom t (k + 4) fuel
          | none => fencedFrom t (i + 1) fuel
        else fencedFrom t (i + 1) fuel
      else fencedFrom t (i + 1) fuel
    else []

def rstMarker : List Char := (".. code-block::").toList

def nlnl : List Char := ['\n', '\n']

def fourSpaces : List Char := [' ', ' ', ' ', ' ']

/-- Backtracking over the `(\w*)` group of the RST code-block regex
`\.\. code-block::\s*(\w*)\n\n((?:    .*\n?)+)` (with `re.DOTALL`): word-run
length descending (greedy), requiring `\n\n` and then a four-space indent.
Under DOTALL the `.*` of the body group swallows the rest of the text, so a
successful match always extends to the end of the input. -/
def rstTryW (t : List Char) (base : Nat) : Nat → Option (List Char)
  | 0 => if occursAt t nlnl base && occursAt t fourSpaces (base + 2) then some [] else none
  | w+1 =>
    if occursAt t nlnl (base + (w+1)) && occursAt t fourSpaces (base + (w+1) + 2) then
      some ((t.drop base).take (w+1))
    else rstTryW t base w

/-- The language group matched when `\s*` has consumed `s` characters. -/
def rstAtS (t : List Char) (p : Nat) : Option (Option (List Char)) :=
  (rstTryW t p (((t.drop p).takeWhile isWordChar).length)).map
    (fun lang => if lang.isEmpty then none else some lang)

/-- Backtracking over the `\s*` part: whitespace-run length descending
(greedy). -/
def rstTryS (t : List Char) (after : Nat) : Nat → Option (Option (List Char))
  | 0 => rstAtS t after
  | s+1 =>
    match rstAtS t (after + (s+1)) with
    | some r => some r
    | none => rstTryS t after s

/-- First match of the RST code-block regex at or after position `i`. -/
def rstFrom (t : List Char) : Nat → Nat → Option Block
  | _, 0 => none
  | i, fuel+1 =>
    if i < t.length then
      if occursAt t rstMarker i then
        let after := i + rstMarker.length
        let wsMax := ((t.drop after).takeWhile Char.isWhitespace).length
        match rstTryS t after wsMax with
        | some lang => some (i, t.length, lang)
        | none => rstFrom t (i + 1) fuel
      else rstFrom t (i + 1) fuel
    else none

/-- `TextChunker._detect_code_blocks`: fenced blocks and RST blocks, sorted by
start offset. -/
def detect_code_blocks (t : List Char) : List Block :=
  let fenced := fencedFrom t 0 (t.length + 1)
  let rst := (rstFrom t 0 (t.length + 1)).toList
  stableSort (fun a b => decide (a.1 ≤ b.1)) (fenced ++ rst)

/-- `TextChunker._is_inside_code_block`. -/
def is_inside_code_block (pos : Int) (blocks : List Block) : Bool :=
  blocks.any (fun b => decide ((b.1 : Int) ≤ pos) && decide (pos < (b.2.1 : Int)))

/-- Python slice `t[a:b]`, including negative-index normalization (reachable
in the chunk loop when a code block forces `end` before `start`). -/
def pySlice (t : List Char) (a b : Int) : List Char :=
  let n : Int := t.length
  let norm : Int → Nat := fun i => if i < 0 then (max (n + i) 0).toNat else (min i n).toNat
  (t.drop (norm a)).take (norm b - norm a)

/-- Python `str.strip()` (whitespace from both ends). -/
def stripChars (t : List Char) : List Char :=
  ((t.dropWhile Char.isWhitespace).reverse.dropWhile Char.isWhitespace).reverse

/-- Python `str.rfind(pat)`: the greatest index at which `pat` occurs. -/
def rfindIdx (region pat : List Char) : Option Nat :=
  ((List.range (region.length + 1)).filter (fun i => occursAt region pat i)).getLast?

def sentenceBoundaries : List (List Char) := [['.', ' '], ['.', '\n'], ['?', ' '], ['!', ' ']]

/-- The `for boundary in [". ", ".\n", "? ", "! "]` loop: result of `rfind`
for the first boundary pattern that occurs in the region. -/
def firstBoundary (region : List Char) : Option Nat :=
  sentenceBoundaries.findSome? (fun pat => rfindIdx region pat)

/-- Constructor arguments of `TextChunker`. -/
structure Config where
  chunk_size : Nat := 512
  overlap : Nat := 50
  parent_chunk_size : Nat := 1500
  children_per_parent : Nat := 3
deriving DecidableEq, Repr

/-- The metadata dict attached to a chunk produced by `TextChunker.chunk`:
the caller's metadata (of opaque type `M`) plus the keys the chunker sets. -/
structure ChunkMeta (M : Type) where
  base : M
  has_code : Bool := false
  code_language : Option (List Char) := none
deriving DecidableEq, Repr

/-- One element of the list returned by `TextChunker.chunk`:
`{"text": ..., "metadata": ...}`. -/
structure PChunk (M : Type) where
  text : List Char
  metadata : ChunkMeta M
deriving DecidableEq, Repr

/-- The boundary adjustment of one window `[start, start + chunk_size)`:
extend/retract at a code block, else retract to the last sentence boundary in
the trailing fifth of the window. `chunk_size / 5` models
`int(self.chunk_size * 0.2)` and `2 * (be − start) ≤ 3 * chunk_size` models
`block_end − start <= self.chunk_size * 1.5`; both are exact at realistic
sizes. -/
def chunkEnd (cfg : Config) (t : List Char) (blocks : List Block) (start : Int) : Int :=
  let end0 : Int := start + cfg.chunk_size
  if end0 < (t.length : Int) then
    if is_inside_code_block end0 blocks then
      match blocks.find? (fun b => decide ((b.1 : Int) ≤ end0) && decide (end0 < (b.2.1 : Int))) with
      | some b =>
        if 2 * ((b.2.1 : Int) - start) ≤ 3 * (cfg.chunk_size : Int) then (b.2.1 : Int)
        else (b.1 : Int)
      | none => end0
    else
      let search_start : Int := end0 - (cfg.chunk_size / 5 : Nat)
      match firstBoundary (pySlice t search_start end0) with
      | some lb => search_start + lb + 1
      | none => end0
  else end0

/-- `has_code` tag of an emitted chunk: some block intersects `[start, end)`. -/
def chunkHasCode (blocks : List Block) (start e : Int) : Bool :=
  blocks.any (fun b => decide ((b.1 : Int) < e) && decide (start < (b.2.1 : Int)))

/-- `code_language` tag: language of the first intersecting block that has a
(truthy) language. -/
def chunkCodeLang (blocks : List Block) (start e : Int) : Option (List Char) :=
  (blocks.find? (fun b =>
    decide ((b.1 : Int) < e) && decide (start < (b.2.1 : Int)) && b.2.2.isSome)).bind (·.2.2)

/-- The `while start < len(text)` loop of `TextChunker.chunk`. The fuel bounds
the number of iterations; every terminating run of the Python loop fits in
`t.length + 1` iterations whenever the window start advances each round (the
Python loop does not terminate at all when it fails to advance). -/
def chunkLoop (cfg : Config) {M : Type} (metadata : M) (t : List Char) (blocks : List Block) :
    Int → Nat → List (PChunk M)
  | _, 0 => []
  | start, fuel+1 =>
    if start < (t.length : Int) then
      let e := chunkEnd cfg t blocks start
      let ctext := stripChars (pySlice t start e)
      let rest := chunkLoop cfg metadata t blocks
        (if e < (t.length : Int) then e - (cfg.overlap : Int) else e) fuel
      if ctext.isEmpty then rest
      else
        { text := ctext,
          metadata := { base := metadata, has_code := chunkHasCode blocks start e,
                        code_language := chunkCodeLang blocks start e } } :: rest
    else []

/-- `TextChunker.chunk`. -/
def chunk (cfg : Config) {M : Type} (metadata : M) (text : List Char) : List (PChunk M) :=
  if (stripChars text).isEmpty then []
  else
    let t := stripChars text
    let blocks := detect_code_blocks t
    if t.length ≤ cfg.chunk_size then
      [{ text := t,
         metadata := { base := metadata, has_code := !blocks.isEmpty,
                       code_language := match blocks with
                         | [] => none
                         | b :: _ => b.2.2 } }]
    else chunkLoop cfg metadata t blocks 0 (t.length + 1)

/-- Metadata of a chunk produced by `TextChunker.chunk_hierarchical`: the
chunk metadata plus the three hierarchical keys. -/
structure HChunkMeta (M : Type) where
  base : M
  has_code : Bool
  code_language : Option (List Char)
  sequence_number : Nat
  parent_chunk_id : Nat
  parent_content : List Char
deriving DecidableEq, Repr

/-- One element of the list returned by `TextChunker.chunk_hierarchical`. -/
structure HChunk (M : Type) where
  text : List Char
  metadata : HChunkMeta M
deriving DecidableEq, Repr

/-- `TextChunker.chunk_hierarchical`. `uuid4()` is called once per child,
inside the loop; the fresh ids are modelled as `uuidStart + i`. The slice
`child_chunks[parent_start : min (parent_start + children_per_parent) len]`
is `(child_chunks.drop parent_start).take children_per_parent`. -/
def chunk_hierarchical (cfg : Config) {M : Type} (uuidStart : Nat) (metadata : M)
    (text : List Char) : List (HChunk M) :=
  let child_chunks := chunk cfg metadata text
  if child_chunks.isEmpty then []
  else
    child_chunks.enum.map (fun p =>
      let i := p.1
      let child := p.2
      let parent_index := i / cfg.children_per_parent
      let parent_start := parent_index * cfg.children_per_parent
      let parent_texts := ((child_chunks.drop parent_start).take cfg.children_per_parent).map (·.text)
      let parent_content := List.intercalate ['\n', '\n'] parent_texts
      { text := child.text,
        metadata := { base := child.metadata.base,
                      has_code := child.metadata.has_code,
                      code_language := child.metadata.code_language,
                      sequence_number := i,
                      parent_chunk_id := uuidStart + i,
                      parent_content := parent_content } })

end TextChunker

namespace BookIngestionService

open TextChunker

/-- Lines 73–77 of `BookIngestionService.ingest_book`: chunk every parser
segment with `chunk_hierarchical` and concatenate the results. The uuid
counter is threaded through the calls (each call consumes one fresh uuid per
emitted child). -/
def ingest_segments (cfg : Config) {M : Type} (segments : List (M × List Char)) :
    List (HChunk M) :=
  (segments.foldl
    (fun (acc : List (HChunk M) × Nat) (seg : M × List Char) =>
      let cs := chunk_hierarchical cfg acc.2 seg.1 seg.2
      (acc.1 ++ cs, acc.2 + cs.length))
    ([], 0)).1

end BookIngestionService

/-- The `Chunk` dataclass of `src/models/chunk.py`. UUIDs are modelled by
their string form (`str(uuid)` / `UUID(str)` round-trip), embeddings as
opaque integer vectors. -/
structure Chunk where
  id : String
  book_id : String
  content : String
  page_number : Option Int := none
  chapter : Option String := none
  embedding : Option (List Int) := none
  has_code : Bool := false
  code_language : Option String := none
  sequence_number : Int := 0
  parent_chunk_id : Option String := none
  parent_content : Option String := none
deriving DecidableEq, Repr

/-- Python truthiness of an `str | None` field (`None` and `""` are falsy). -/
def truthyStr : Option String → Bool
  | some s => !(s = "")
  | none => false

/-- Python truthiness of an `int | None` field (`None` and `0` are falsy). -/
def truthyInt : Option Int → Bool
  | some n => !(n = 0)
  | none => false

namespace ChromaVectorStore

/-- `ChromaVectorStore._sanitize_collection_name`. -/
def _sanitize_collection_name (name : List Char) : List Char :=
  -- Replace invalid chars
  let s1 := name.map (fun c => if c.isAlphanum || c == '-' || c == '_' then c else '_')
  -- Ensure starts with letter (Python: `if sanitized and not sanitized[0].isalpha()`;
  -- the guard is false for an empty string, which therefore skips the fix-up)
  let s2 := if s1.head?.any (fun c => !c.isAlpha) then 'c' :: '_' :: s1 else s1
  -- Ensure valid length
  let s3 := s2.take 63
  let s4 := if s3.length < 3 then s3 ++ ("_col").toList else s3
  -- Ensure ends with alphanumeric: rstrip("-_"), falling back to "collection"
  let s5 := (s4.reverse.dropWhile (fun c => c == '-' || c == '_')).reverse
  if s5.isEmpty then ("collection").toList else s5

/-- One record of a Chroma collection, as written by `add_chunks`: the
document text plus the metadata dict (all keys present, `None` fields encoded
as `-1` / `""` exactly as in `add_chunks`). -/
structure StoredChunk where
  id : String
  document : String
  book_id : String
  page_number : Int
  chapter : String
  has_code : Bool
  code_language : String
  sequence_number : Int
  parent_chunk_id : String
  parent_content : String
  embedding : Option (List Int)
deriving DecidableEq, Repr

/-- The persistent client: named collections and their records. -/
structure Client where
  collections : List (String × List StoredChunk)
deriving Repr

/-- Reconstruction of a `Chunk` from a stored record inside
`get_neighbor_chunks` (the `Chunk(...)` call on its lines 250–264):
`page_number == -1` decodes to `None`, empty strings decode to `None` via
`str(...) or None` truthiness. -/
def decodeChunk (book_id_str : String) (s : StoredChunk) : Chunk :=
  { id := s.id,
    book_id := book_id_str,
    content := s.document,
    page_number := if s.page_number = -1 then none else some s.page_number,
    chapter := if s.chapter = "" then none else some s.chapter,
    embedding := s.embedding,
    has_code := s.has_code,
    code_language := if s.code_language = "" then none else some s.code_language,
    sequence_number := s.sequence_number,
    parent_chunk_id := if s.parent_chunk_id = "" then none else some s.parent_chunk_id,
    parent_content := if s.parent_content = "" then none else some s.parent_content }

/-- `range(-window, window + 1)`. -/
def offsets (window : Int) : List Int :=
  (List.range (2 * window + 1).toNat).map (fun k => -window + Int.ofNat k)

/-- The target sequence numbers contributed by one hit chunk: its own and its
neighbors', negative ones excluded. -/
def targetSeqs (seq window : Int) : List Int :=
  (offsets window).filterMap (fun o => if 0 ≤ seq + o then some (seq + o) else none)

/-- Insertion into the `chunks_to_fetch` dict: union the target set of an
existing book key, or append a new key. A Python `set[int]` is modelled by a
list up to membership (only `in` is ever asked of it), so union filters
already-present targets and a fresh key keeps the target list as is. -/
def upsertFetch (m : List (String × List Int)) (b : String) (ts : List Int) :
    List (String × List Int) :=
  if m.any (fun p => p.1 = b) then
    m.map (fun p => if p.1 = b then (p.1, p.2 ++ ts.filter (fun t => !(p.2.contains t))) else p)
  else m ++ [(b, ts)]

/-- The `chunks_to_fetch` dict (`book_id -> set of sequence numbers`) built
by the first loop of `get_neighbor_chunks`. -/
def buildFetch (chunks : List Chunk) (window : Int) : List (String × List Int) :=
  chunks.foldl (fun m c => upsertFetch m c.book_id (targetSeqs c.sequence_number window)) []

/-- Python `dict` insertion used by `{chunk.id: chunk for chunk in all_chunks}`:
first occurrence fixes the key position, later occurrences overwrite the
value. -/
def dictInsert (m : List (String × Chunk)) (k : String) (v : Chunk) : List (String × Chunk) :=
  if m.any (fun p => p.1 = k) then m.map (fun p => if p.1 = k then (p.1, v) else p)
  else m ++ [(k, v)]

/-- Deduplication by chunk id. -/
def dedupById (l : List Chunk) : List Chunk :=
  (l.foldl (fun m c => dictInsert m c.id c) []).map (·.2)

/-- Strict lexicographic comparison of strings by code point, as Python
compares `str` (written out on the character lists so that it evaluates by
kernel reduction). -/
def charListLt : List Char → List Char → Bool
  | [], [] => false
  | [], _ :: _ => true
  | _ :: _, [] => false
  | a :: as, b :: bs => decide (a < b) || (decide (a = b) && charListLt as bs)

/-- The sort key comparison `lambda c: (str(c.book_id), c.sequence_number)`. -/
def neighborLe (a b : Chunk) : Bool :=
  charListLt a.book_id.toList b.book_id.toList ||
    (decide (a.book_id = b.book_id) && decide (a.sequence_number ≤ b.sequence_number))

/-- `ChromaVectorStore.get_neighbor_chunks`. `collection.get(where={"book_id": b})`
returns the records of the collection with that `book_id`, in store order; the
adapter filters them by target sequence number, deduplicates by id, and sorts
by `(book_id, sequence_number)`. -/
def get_neighbor_chunks (client : Client) (chunks : List Chunk) (collection_id : String)
    (window : Int) : List Chunk :=
  if chunks.isEmpty || window < 1 then chunks
  else
    let name := _sanitize_collection_name collection_id.toList
    match (client.collections.find? (fun p => p.1.toList = name)).map (·.2) with
    | none => chunks
    | some col =>
      let fetchMap := buildFetch chunks window
      let all_chunks := fetchMap.flatMap (fun bs =>
        (col.filter (fun s => s.book_id = bs.1)).filterMap (fun s =>
          if bs.2.contains s.sequence_number then some (decodeChunk bs.1 s) else none))
      let unique_chunks := dedupById all_chunks
      stableSort neighborLe unique_chunks

/-- `ChromaVectorStore.get_collection_size`: `0` when the collection does not
exist, else `collection.count()`. -/
def get_collection_size (client : Client) (collection_id : String) : Nat :=
  let name := _sanitize_collection_name collection_id.toList
  match (client.collections.find? (fun p => p.1.toList = name)).map (·.2) with
  | none => 0
  | some col => col.length

end ChromaVectorStore

namespace MCPManager

/-- An `MCPAdapter` (`src/mcp/adapters/base.py`): its registry name, display
name, and `search_context`, which performs remote I/O and may raise
(modelled by `Except`). -/
structure Adapter where
  name : String
  display_name : String
  search_context : String → Nat → Except String (List String)

/-- `MCPManager`: the name-keyed adapter registry (`self._adapters` dict,
keyed by `adapter.name` at registration). -/
structure Manager where
  adapters : List (String × Adapter)

/-- `MCPManager.search_context`: unknown source logs a warning and returns
`[]`; a found adapter's `search_context` is returned as is (exceptions
propagate to the caller). -/
def Manager.search_context (m : Manager) (source : String) (query : String) (top_k : Nat) :
    Except String (List String) :=
  match (m.adapters.find? (fun p => p.1 = source)).map (·.2) with
  | none => Except.ok []
  | some adapter => adapter.search_context query top_k

end MCPManager

/-- `QuerySource` of `src/models/query.py`. -/
inductive QuerySource
  | books | compliance | mslearn | export_control | all | both
deriving DecidableEq, Repr

/-- `QueryRequest` of `src/models/query.py`. `retrieval_percentage` is an
exact rational standing for the request's float. -/
structure QueryRequest where
  query : String
  session_id : String
  source : QuerySource := QuerySource.books
  top_k : Nat := 5
  retrieval_percentage : Option ℚ := none
  conversation_history : List (String × String) := []
  model : Option String := none

/-- `QueryResponse` of `src/models/query.py` (the wall-clock `latency_ms`
field is not modelled). -/
structure QueryResponse where
  answer : String
  sources : List Chunk
deriving Repr

/-- The `context` argument passed to `llm_client.generate`:
`_combine_context` returns either `list[Chunk]` or `list[str]`. -/
inductive LLMContext where
  | chunks : List Chunk → LLMContext
  | strings : List String → LLMContext
deriving DecidableEq, Repr

namespace QueryService

/-- Lines 105–114 of `_retrieve_book_chunks`: the adaptive top-k.
`int(collection_size * (retrieval_percentage / 100))` on the exact rational
`p = p.num / p.den` is the toward-zero truncation of `size·p/100`, computed
here on numerator and denominator (`Int.tdiv` truncates toward zero exactly
as Python `int()`). -/
def computeTopK (retrieval_percentage : Option ℚ) (collection_size : Nat)
    (request_top_k : Nat) : Nat :=
  match retrieval_percentage with
  | none => request_top_k
  | some p =>
    if collection_size = 0 then 5
    else
      let calculated_top_k : Int :=
        ((collection_size : Int) * p.num).tdiv (100 * (p.den : Int))
      (max 5 (min 100 calculated_top_k)).toNat

/-- The query service: the Chroma client state, plus the external
collaborators (ANN ranking of `collection.query`, embedder, LLM) as oracle
functions. -/
structure Service where
  client : ChromaVectorStore.Client
  vs_search : List Int → String → Nat → List Chunk
  embed_query : String → List Int
  llm_generate : String → LLMContext → List (String × String) → Option String → String
  neighbor_window : Nat := 1
  mcp_manager : Option MCPManager.Manager := none

/-- `QueryService._retrieve_book_chunks`. -/
def _retrieve_book_chunks (svc : Service) (request : QueryRequest) : List Chunk :=
  let top_k := computeTopK request.retrieval_percentage
    (ChromaVectorStore.get_collection_size svc.client request.session_id) request.top_k
  let query_embedding := svc.embed_query request.query
  let chunks := svc.vs_search query_embedding request.session_id top_k
  if svc.neighbor_window > 0 then
    ChromaVectorStore.get_neighbor_chunks svc.client chunks request.session_id
      (svc.neighbor_window : Int)
  else chunks

/-- `QueryService._retrieve_mcp_context`: `if not self.mcp_manager` is falsy
both for `None` and for a manager with no adapters (`MCPManager.__bool__`);
adapter exceptions are caught and yield `[]`. -/
def _retrieve_mcp_context (svc : Service) (source : String) (request : QueryRequest) :
    List String :=
  match svc.mcp_manager with
  | none => []
  | some m =>
    if m.adapters.length = 0 then []
    else
      match m.search_context source request.query request.top_k with
      | Except.ok context => context
      | Except.error _ => []

/-- `QueryService._build_enhanced_chunks`: substitute `parent_content` for
`content` when truthy, preserving every other field. -/
def _build_enhanced_chunks (chunks : List Chunk) : List Chunk :=
  chunks.map (fun chunk =>
    { chunk with
      content := match chunk.parent_content with
        | some s => if s = "" then chunk.content else s
        | none => chunk.content })

/-- The per-chunk rendering inside `_combine_context`:
`f"{chunk.content}{source_suffix}"` with the chapter/page attribution.
Chapter and page contribute only when truthy (so `page_number == 0` and
`chapter == ""` are omitted). -/
def renderChunk (chunk : Chunk) : String :=
  let source_info : List String :=
    (if truthyStr chunk.chapter then ["Chapter: " ++ chunk.chapter.getD ""] else []) ++
    (if truthyInt chunk.page_number then ["Page " ++ toString (chunk.page_number.getD 0)] else [])
  let source_suffix :=
    if !source_info.isEmpty then " [" ++ String.intercalate ", " source_info ++ "]" else ""
  chunk.content ++ source_suffix

/-- `QueryService._combine_context`. -/
def _combine_context (book_chunks : List Chunk) (compliance_context : List String) :
    LLMContext :=
  if compliance_context.isEmpty then LLMContext.chunks book_chunks
  else if book_chunks.isEmpty then LLMContext.strings compliance_context
  else LLMContext.strings (compliance_context ++ book_chunks.map renderChunk)

/-- `QueryService.query` (the `latency_ms` timing is not modelled). -/
def query (svc : Service) (request : QueryRequest) : QueryResponse :=
  let book_sources : List QuerySource := [QuerySource.books, QuerySource.both, QuerySource.all]
  let compliance_sources : List QuerySource :=
    [QuerySource.compliance, QuerySource.both, QuerySource.all]
  let query_books := book_sources.contains request.source
  let query_compliance := compliance_sources.contains request.source
  let query_mslearn := ([QuerySource.mslearn, QuerySource.all] : List QuerySource).contains
    request.source
  let book_chunks := if query_books then _retrieve_book_chunks svc request else []
  let mcp_context :=
    (if query_compliance then _retrieve_mcp_context svc "compliance" request else []) ++
    (if query_mslearn then _retrieve_mcp_context svc "mslearn" request else [])
  let enhanced_chunks := _build_enhanced_chunks book_chunks
  let combined_context := _combine_context enhanced_chunks mcp_context
  let answer := svc.llm_generate request.query combined_context
    request.conversation_history request.model
  { answer := answer, sources := book_chunks }

end QueryService

/-!
## Spec-side operators

These two definitions follow the specification's wording, not the code; they
exist to be compared against the code-derived definitions above.
-/

/-- The reconstruction operator of the lossless-chunking claim: concatenate
the chunk texts with the overlapping regions removed, i.e. drop the first
`overlap` characters of every chunk after the first. -/
def concatWithoutOverlap (overlap : Nat) : List (List Char) → List Char
  | [] => []
  | t :: ts => t ++ (ts.map (fun u => u.drop overlap)).flatten

/-- The adaptive-top-k claim's `round`: round to nearest. (Python's
`round` is round-half-to-even; the two differ only at exact halves, which no
input used here produces.) -/
def specRound (q : ℚ) : Int := ⌊q + 1 / 2⌋

/-!
## Concrete fixtures

Concrete inputs used to evaluate the embedded code in counterexamples and
witnesses.
-/

/-- A local chunk with both chapter and page attribution. -/
def fusionChunk : Chunk :=
  { id := "a", book_id := "b", content := "text", chapter := some "Intro",
    page_number := some 3 }

/-- The chunk the vector search ranks first (sequence number 1 of book `b`). -/
def hitChunk : Chunk :=
  { id := "c1", book_id := "b", content := "hit", sequence_number := 1 }

/-- The stored predecessor of `hitChunk` (sequence number 0). -/
def neighborChunk : Chunk :=
  { id := "c0", book_id := "b", content := "near", sequence_number := 0 }

/-- `hitChunk` as stored in the Chroma collection. -/
def storedHit : ChromaVectorStore.StoredChunk :=
  { id := "c1", document := "hit", book_id := "b", page_number := -1, chapter := "",
    has_code := false, code_language := "", sequence_number := 1, parent_chunk_id := "",
    parent_content := "", embedding := none }

/-- `neighborChunk` as stored in the Chroma collection. -/
def storedNeighbor : ChromaVectorStore.StoredChunk :=
  { id := "c0", document := "near", book_id := "b", page_number := -1, chapter := "",
    has_code := false, code_language := "", sequence_number := 0, parent_chunk_id := "",
    parent_content := "", embedding := none }

/-- A query service over a two-chunk collection for session `s1`
(collection name `s1_col` after sanitizing) whose search oracle ranks
`hitChunk` first; `neighbor_window = 1` (the constructor default). -/
def expansionService : QueryService.Service :=
  { client := ⟨[("s1_col", [storedNeighbor, storedHit])]⟩,
    vs_search := fun _ _ _ => [hitChunk],
    embed_query := fun _ => [],
    llm_generate := fun _ _ _ _ => "answer",
    neighbor_window := 1,
    mcp_manager := none }

/-- A local-documents query for session `s1`. -/
def expansionRequest : QueryRequest := { query := "q", session_id := "s1" }

/-- A knowledge source that is dead for a request: unknown to the registry,
or its adapter raises on `search_context`. -/
def sourceDead (m : MCPManager.Manager) (source : String) (req : QueryRequest) : Prop :=
  (m.adapters.find? (fun p => p.1 = source)) = none ∨
  ∃ a e, (m.adapters.find? (fun p => p.1 = source)).map (·.2) = some a ∧
    a.search_context req.query req.top_k = Except.error e

/-- An adapter whose `search_context` always raises. -/
def poisonAdapter : MCPManager.Adapter :=
  { name := "compliance", display_name := "Compliance",
    search_context := fun _ _ => Except.error "boom" }

/-- A registry holding only the raising adapter. -/
def poisonManager : MCPManager.Manager := ⟨[("compliance", poisonAdapter)]⟩

/-- A query service whose only external source raises. -/
def poisonService : QueryService.Service :=
  { client := ⟨[]⟩,
    vs_search := fun _ _ _ => [],
    embed_query := fun _ => [],
    llm_generate := fun _ _ _ _ => "answer",
    neighbor_window := 1,
    mcp_manager := some poisonManager }

/-- An all-sources query. -/
def poisonRequest : QueryRequest :=
  { query := "q", session_id := "s", source := QuerySource.all }

/-- First stored record of the neighbor-expansion witness collection. -/
def winStored0 : ChromaVectorStore.StoredChunk :=
  { id := "n0", document := "d0", book_id := "bk", page_number := -1, chapter := "",
    has_code := false, code_language := "", sequence_number := 0, parent_chunk_id := "",
    parent_content := "", embedding := none }

/-- Second stored record of the neighbor-expansion witness collection. -/
def winStored1 : ChromaVectorStore.StoredChunk :=
  { id := "n1", document := "d1", book_id := "bk", page_number := -1, chapter := "",
    has_code := false, code_language := "", sequence_number := 1, parent_chunk_id := "",
    parent_content := "", embedding := none }

/-- The hit chunk of the neighbor-expansion witness (stored as `winStored1`). -/
def winChunk : Chunk := { id := "n1", book_id := "bk", content := "d1", sequence_number := 1 }

/-- A client with one two-record collection named `sess` (the sanitized form
of the collection id `sess`). -/
def winClient : ChromaVectorStore.Client := ⟨[("sess", [winStored0, winStored1])]⟩

/-!
## Theorems

One theorem per specification claim (plus shared helper lemmas and, where a
claim fails on the code, a concrete counterexample evaluation).
-/

/-- Claim C10: for every window value, `get_neighbor_chunks` on an empty
input list or on a collection that does not exist returns exactly its input
list — neighbor expansion degrades to the identity instead of raising or
returning `[]`. -/
theorem get_neighbor_chunks_identity_on_missing
    (client : ChromaVectorStore.Client) (chunks : List Chunk) (cid : String) (window : Int) :
    (chunks = [] → ChromaVectorStore.get_neighbor_chunks client chunks cid window = chunks) ∧
    (client.collections.find? (fun p =>
        p.1.toList = ChromaVectorStore._sanitize_collection_name cid.toList) = none →
      ChromaVectorStore.get_neighbor_chunks client chunks cid window = chunks) := by
  constructor
  · intro h
    subst h
    rfl
  · intro h
    simp only [ChromaVectorStore.get_neighbor_chunks, h]
    split <;> rfl

/-- Witness for C10: evaluation on an empty store (no collection exists). -/
theorem get_neighbor_chunks_identity_witness :
    ChromaVectorStore.get_neighbor_chunks ⟨[]⟩ [] "s" 1 = [] ∧
    ChromaVectorStore.get_neighbor_chunks ⟨[]⟩ [fusionChunk] "s" 2 = [fusionChunk] :=
  ⟨(get_neighbor_chunks_identity_on_missing ⟨[]⟩ [] "s" 1).1 rfl,
   (get_neighbor_chunks_identity_on_missing ⟨[]⟩ [fusionChunk] "s" 2).2 rfl⟩

/-- Claim C3 (counterexample): the claim computes
`top_k = clamp(round(collection_size * p / 100), 5, 100)`, but the code uses
`int(...)`, which truncates. At `collection_size = 1950`, `p = 0.5` (within
the 0.5–10.0 bounds) the exact value is 9.75: the code yields 9, the claim's
round yields 10. -/
theorem computeTopK_truncates_not_rounds :
    QueryService.computeTopK (some (⟨1, 2, by decide, by decide⟩ : ℚ)) 1950 5 = 9 ∧
    (max 5 (min 100 (specRound ((1950 : ℚ) *
        ((⟨1, 2, by decide, by decide⟩ : ℚ) / 100))))).toNat = 10 := by
  constructor
  · decide
  · have h : (⟨1, 2, by decide, by decide⟩ : ℚ) = 1 / 2 := by
      rw [Rat.mk'_eq_divInt, Rat.divInt_eq_div]
      norm_num
    rw [h]
    have h2 : specRound ((1950 : ℚ) * (1 / 2 / 100)) = 10 := by
      rw [specRound, Int.floor_eq_iff]
      norm_num
    rw [h2]
    rfl

/-- Claim C3 (amended): with a retrieval percentage `p > 0` specified,
`top_k = 5` on an empty collection and
`top_k = clamp(⌊collection_size * p / 100⌋, 5, 100)` otherwise — floor
(truncation), not rounding to nearest; the spec's three worked examples hold
under floor as well. -/
theorem computeTopK_spec (size : Nat) (p : ℚ) (hp : 0 < p.num) (rtk : Nat) :
    (QueryService.computeTopK (some p) size rtk =
      if size = 0 then 5 else (max 5 (min 100 ⌊(size : ℚ) * (p / 100)⌋)).toNat) ∧
    QueryService.computeTopK (some p) 0 rtk = 5 ∧
    QueryService.computeTopK (some (⟨1, 1, by decide, by decide⟩ : ℚ)) 1000 rtk = 10 ∧
    QueryService.computeTopK (some (⟨10, 1, by decide, by decide⟩ : ℚ)) 10 rtk = 5 ∧
    QueryService.computeTopK (some (⟨10, 1, by decide, by decide⟩ : ℚ)) 10000 rtk = 100 := by
  refine ⟨?_, by simp [QueryService.computeTopK],
    by simp only [QueryService.computeTopK]; decide,
    by simp only [QueryService.computeTopK]; decide,
    by simp only [QueryService.computeTopK]; decide⟩
  by_cases hs : size = 0
  · subst hs
    simp [QueryService.computeTopK]
  · have key : ((size : Int) * p.num).tdiv (100 * (p.den : Int)) =
        ⌊(size : ℚ) * (p / 100)⌋ := by
      have hn : (0 : ℤ) ≤ (size : Int) * p.num := by positivity
      have hd : (0 : ℤ) ≤ 100 * (p.den : Int) := by positivity
      rw [Int.tdiv_eq_ediv hn hd]
      have hq : (size : ℚ) * (p / 100) =
          (((size : Int) * p.num : ℤ) : ℚ) / (((100 * p.den : ℕ) : ℕ) : ℚ) := by
        conv_lhs => rw [← Rat.num_div_den p]
        have hden : ((p.den : ℚ)) ≠ 0 := Nat.cast_ne_zero.mpr p.den_nz
        push_cast
        field_simp
        ring
      rw [hq, Rat.floor_intCast_div_natCast]
      push_cast
      rfl
    simp only [QueryService.computeTopK, if_neg hs, key]

/-- Witness for the amended C3: 1950 chunks at 0.5 % give
`clamp(⌊9.75⌋, 5, 100) = 9`. -/
theorem computeTopK_spec_witness :
    QueryService.computeTopK (some (⟨1, 2, by decide, by decide⟩ : ℚ)) 1950 7 =
      (max 5 (min 100 ⌊((1950 : Nat) : ℚ) * ((⟨1, 2, by decide, by decide⟩ : ℚ) / 100)⌋)).toNat :=
  by simpa using (computeTopK_spec 1950 (⟨1, 2, by decide, by decide⟩ : ℚ) (by decide) 7).1

/-- `String.intercalate` on a one-element list. -/
theorem intercalate_singleton (s a : String) : String.intercalate s [a] = a := rfl

/-- `String.intercalate` on a two-element list. -/
theorem intercalate_pair (s a b : String) :
    String.intercalate s [a, b] = a ++ s ++ b := rfl

/-- Claim C4: context fusion. With no external context the chunk objects pass
through unchanged; with no local chunks the external strings pass through
unchanged; with both, the result is the external strings followed by the
rendered local chunks (`"{content} [{attribution}]"`, the attribution built
from the chapter and/or page number when present/truthy), so every external
string precedes every local string and the length is the sum. -/
theorem combine_context_spec (book_chunks : List Chunk) (ext : List String) :
    (ext = [] → QueryService._combine_context book_chunks ext = LLMContext.chunks book_chunks) ∧
    (ext ≠ [] → book_chunks = [] →
      QueryService._combine_context book_chunks ext = LLMContext.strings ext) ∧
    (ext ≠ [] → book_chunks ≠ [] →
      QueryService._combine_context book_chunks ext =
        LLMContext.strings (ext ++ book_chunks.map QueryService.renderChunk) ∧
      (ext ++ book_chunks.map QueryService.renderChunk).length =
        ext.length + book_chunks.length) ∧
    (∀ c : Chunk, c.chapter = none → c.page_number = none →
      QueryService.renderChunk c = c.content) ∧
    (∀ (c : Chunk) (ch : String), c.chapter = some ch → ch ≠ "" → c.page_number = none →
      QueryService.renderChunk c = c.content ++ " [Chapter: " ++ ch ++ "]") ∧
    (∀ (c : Chunk) (n : Int), c.chapter = none → c.page_number = some n → n ≠ 0 →
      QueryService.renderChunk c = c.content ++ " [Page " ++ toString n ++ "]") ∧
    (∀ (c : Chunk) (ch : String) (n : Int), c.chapter = some ch → ch ≠ "" →
      c.page_number = some n → n ≠ 0 →
      QueryService.renderChunk c =
        c.content ++ " [Chapter: " ++ ch ++ ", Page " ++ toString n ++ "]") := by
  refine ⟨?_, ?_, ?_, ?_, ?_, ?_, ?_⟩
  · intro h
    subst h
    rfl
  · intro hne hb
    subst hb
    simp [QueryService._combine_context, hne]
  · intro hne hb
    constructor
    · simp [QueryService._combine_context, hne, hb]
    · simp
  · intro c h1 h2
    simp [QueryService.renderChunk, h1, h2, truthyStr, truthyInt]
  · intro c ch h1 h2 h3
    simp only [QueryService.renderChunk, h1, h2, h3, truthyStr, truthyInt,
      intercalate_singleton, String.append_assoc]
    simp [h2]
    rfl
  · intro c n h1 h2 h3
    simp only [QueryService.renderChunk, h1, h2, h3, truthyStr, truthyInt,
      intercalate_singleton, String.append_assoc]
    simp [h3]
    rfl
  · intro c ch n h1 h2 h3 h4
    simp only [QueryService.renderChunk, h1, h2, h3, h4, truthyStr, truthyInt,
      intercalate_pair, String.append_assoc]
    simp [h2, h4, intercalate_pair, String.append_assoc]
    rfl

/-- Witness for C4: the three fusion branches evaluated on concrete inputs. -/
theorem combine_context_witness :
    QueryService._combine_context [fusionChunk] [] = LLMContext.chunks [fusionChunk] ∧
    QueryService._combine_context [] ["e1"] = LLMContext.strings ["e1"] ∧
    QueryService._combine_context [fusionChunk] ["e1", "e2"] =
      LLMContext.strings ["e1", "e2", "text [Chapter: Intro, Page 3]"] := by
  refine ⟨(combine_context_spec [fusionChunk] []).1 rfl,
    (combine_context_spec [] ["e1"]).2.1 (by simp) rfl, ?_⟩
  have h := ((combine_context_spec [fusionChunk] ["e1", "e2"]).2.2.1 (by simp) (by simp)).1
  rw [h]
  decide

/-- A `dropWhile` result is contained in the original list. -/
theorem mem_of_mem_dropWhile {α : Type} (p : α → Bool) (l : List α) (c : α)
    (h : c ∈ l.dropWhile p) : c ∈ l :=
  (List.dropWhile_sublist p).mem h

/-- A list's head is one of its members. -/
theorem mem_of_head?_eq {α : Type} {l : List α} {c : α} (h : l.head? = some c) : c ∈ l := by
  cases l with
  | nil => simp at h
  | cons a as =>
    simp only [List.head?_cons, Option.some.injEq] at h
    rw [← h]
    exact List.mem_cons_self a as

/-- The head of a `dropWhile p` result falsifies `p`. -/
theorem head?_dropWhile_false {α : Type} (p : α → Bool) (l : List α) (c : α)
    (h : (l.dropWhile p).head? = some c) : p c = false := by
  induction l with
  | nil => simp [List.dropWhile] at h
  | cons a as ih =>
    rw [List.dropWhile_cons] at h
    cases hpa : p a with
    | true =>
      rw [hpa, if_pos rfl] at h
      exact ih h
    | false =>
      rw [hpa, if_neg Bool.false_ne_true] at h
      simp only [List.head?_cons, Option.some.injEq] at h
      rw [← h]
      exact hpa

/-- A nonempty `dropWhile` keeps the last element. -/
theorem getLast?_dropWhile {α : Type} (p : α → Bool) (l : List α)
    (h : l.dropWhile p ≠ []) : (l.dropWhile p).getLast? = l.getLast? := by
  induction l with
  | nil => simp [List.dropWhile] at h
  | cons a as ih =>
    rw [List.dropWhile_cons] at h ⊢
    cases hpa : p a with
    | true =>
      rw [hpa] at h
      rw [if_pos rfl] at h ⊢
      have has : as ≠ [] := by
        intro he
        rw [he] at h
        simp [List.dropWhile] at h
      rw [ih h]
      cases as with
      | nil => exact absurd rfl has
      | cons b bs => simp [List.getLast?_cons_cons]
    | false =>
      rw [hpa] at h
      rw [if_neg Bool.false_ne_true] at h ⊢

/-- Claim C9 (counterexample): the claim requires the sanitized name to begin
with a letter and to have length at least 3 for every input id. The empty id
yields `"_col"` (begins with an underscore: the leading-letter fix-up is
skipped for an empty intermediate string), and the id `"-"` yields `"c"`
(length 1: trailing-separator stripping runs after the length fix-up). -/
theorem sanitize_collection_name_counterexample :
    ChromaVectorStore._sanitize_collection_name ("").toList = ("_col").toList ∧
    ('_').isAlpha = false ∧
    ChromaVectorStore._sanitize_collection_name ("-").toList = ("c").toList ∧
    (ChromaVectorStore._sanitize_collection_name ("-").toList).length < 3 := by
  refine ⟨?_, ?_, ?_, ?_⟩ <;> decide

/-- Claim C9 (amended): the sanitizing transform is a pure function of the
id; its output contains only alphanumerics, hyphens and underscores, is never
empty, ends with an alphanumeric (never a hyphen or underscore), has length
at most 63, and begins with a letter whenever the input is non-empty. (The
lower length bound 3 and the leading letter for the empty input do not hold,
as the counterexample shows.) -/
theorem sanitize_collection_name_spec (name : List Char) :
    (∀ c ∈ ChromaVectorStore._sanitize_collection_name name,
      c.isAlphanum = true ∨ c = '-' ∨ c = '_') ∧
    ChromaVectorStore._sanitize_collection_name name ≠ [] ∧
    (∀ c, (ChromaVectorStore._sanitize_collection_name name).getLast? = some c →
      c.isAlphanum = true) ∧
    (ChromaVectorStore._sanitize_collection_name name).length ≤ 63 ∧
    (name ≠ [] → ∀ c, (ChromaVectorStore._sanitize_collection_name name).head? = some c →
      c.isAlpha = true) := by
  unfold ChromaVectorStore._sanitize_collection_name
  dsimp only
  set s1 := name.map (fun c => if c.isAlphanum || c == '-' || c == '_' then c else '_') with hs1
  set s2 := (if s1.head?.any (fun c => !c.isAlpha) then 'c' :: '_' :: s1 else s1) with hs2
  set s3 := s2.take 63 with hs3
  set s4 := (if s3.length < 3 then s3 ++ ("_col").toList else s3) with hs4
  set s5 := (s4.reverse.dropWhile (fun c => c == '-' || c == '_')).reverse with hs5
  have hs1P : ∀ c ∈ s1, c.isAlphanum = true ∨ c = '-' ∨ c = '_' := by
    intro c hc
    rw [hs1] at hc
    obtain ⟨a, _, ha⟩ := List.mem_map.mp hc
    by_cases h : (a.isAlphanum || a == '-' || a == '_') = true
    · rw [if_pos h] at ha
      subst ha
      simp only [Bool.or_eq_true, beq_iff_eq] at h
      tauto
    · rw [if_neg h] at ha
      right; right; exact ha.symm
  have hs2P : ∀ c ∈ s2, c.isAlphanum = true ∨ c = '-' ∨ c = '_' := by
    intro c hc
    rw [hs2] at hc
    by_cases h : (s1.head?.any (fun c => !c.isAlpha)) = true
    · rw [if_pos h] at hc
      rw [List.mem_cons] at hc
      rcases hc with rfl | hc
      · left; decide
      · rw [List.mem_cons] at hc
        rcases hc with rfl | hc
        · right; right; rfl
        · exact hs1P c hc
    · rw [if_neg h] at hc
      exact hs1P c hc
  have hs4P : ∀ c ∈ s4, c.isAlphanum = true ∨ c = '-' ∨ c = '_' := by
    intro c hc
    rw [hs4] at hc
    by_cases h : s3.length < 3
    · rw [if_pos h] at hc
      rcases List.mem_append.mp hc with hm | hm
      · exact hs2P c (List.mem_of_mem_take hm)
      · fin_cases hm <;> simp
    · rw [if_neg h] at hc
      exact hs2P c (List.mem_of_mem_take hc)
  have hs5P : ∀ c ∈ s5, c.isAlphanum = true ∨ c = '-' ∨ c = '_' := by
    intro c hc
    rw [hs5] at hc
    rw [List.mem_reverse] at hc
    have := mem_of_mem_dropWhile _ _ _ hc
    rw [List.mem_reverse] at this
    exact hs4P c this
  have hcolP : ∀ c ∈ ("collection").toList, c.isAlphanum = true ∨ c = '-' ∨ c = '_' := by
    decide
  refine ⟨?_, ?_, ?_, ?_, ?_⟩
  · intro c hc
    by_cases h : s5.isEmpty = true
    · rw [if_pos h] at hc
      exact hcolP c hc
    · rw [if_neg h] at hc
      exact hs5P c hc
  · by_cases h : s5.isEmpty = true
    · rw [if_pos h]
      decide
    · rw [if_neg h]
      simpa using h
  · intro c hc
    by_cases h : s5.isEmpty = true
    · rw [if_pos h] at hc
      have hcn : c = 'n' := by
        rw [show ("collection").toList.getLast? = some 'n' from rfl] at hc
        exact ((Option.some.injEq _ _).mp hc).symm
      subst hcn
      decide
    · rw [if_neg h] at hc
      have hlast : (s4.reverse.dropWhile (fun c => c == '-' || c == '_')).head? = some c := by
        rw [hs5] at hc
        rwa [List.getLast?_reverse] at hc
      have hfalse := head?_dropWhile_false _ _ _ hlast
      simp only [Bool.or_eq_false_iff, beq_eq_false_iff_ne, ne_eq] at hfalse
      have hmem : c ∈ s5 := by
        rw [hs5, List.mem_reverse]
        exact mem_of_head?_eq hlast
      rcases hs5P c hmem with hP | hP | hP
      · exact hP
      · exact absurd hP hfalse.1
      · exact absurd hP hfalse.2
  · have h3len : s3.length ≤ 63 := by
      rw [hs3]
      simp [List.length_take_le 63 s2]
    have h4len : s4.length ≤ 63 := by
      rw [hs4]
      by_cases h : s3.length < 3
      · rw [if_pos h]
        rw [List.length_append]
        have : ("_col").toList.length = 4 := rfl
        omega
      · rw [if_neg h]
        exact h3len
    have h5len : s5.length ≤ 63 := by
      rw [hs5, List.length_reverse]
      calc (s4.reverse.dropWhile (fun c => c == '-' || c == '_')).length
          ≤ s4.reverse.length := (List.dropWhile_sublist _).length_le
        _ = s4.length := List.length_reverse _
        _ ≤ 63 := h4len
    by_cases h : s5.isEmpty = true
    · rw [if_pos h]
      decide
    · rw [if_neg h]
      exact h5len
  · intro hname c hc
    have hs1ne : s1 ≠ [] := by
      rw [hs1]
      simpa using hname
    have hhead2 : ∀ e, s2.head? = some e → e.isAlpha = true := by
      intro e he
      rw [hs2] at he
      rcases hl : s1 with _ | ⟨b, bs⟩
      · exact absurd hl hs1ne
      · rw [hl] at he
        simp only [List.head?_cons, Option.any_some] at he
        by_cases h : (!b.isAlpha) = true
        · rw [if_pos h] at he
          simp only [List.head?_cons, Option.some.injEq] at he
          rw [← he]
          decide
        · rw [if_neg h] at he
          simp only [List.head?_cons, Option.some.injEq] at he
          rw [← he]
          simpa using h
    have hs2ne : s2 ≠ [] := by
      rw [hs2]
      by_cases h : (s1.head?.any (fun c => !c.isAlpha)) = true
      · rw [if_pos h]
        simp
      · rw [if_neg h]
        exact hs1ne
    have h3head : s3.head? = s2.head? := by
      rw [hs3, List.head?_take]
      simp
    have hhead4 : ∀ d, s4.head? = some d → d.isAlpha = true := by
      intro d hd
      rw [hs4] at hd
      by_cases h : s3.length < 3
      · rw [if_pos h] at hd
        rcases hm3 : s3 with _ | ⟨a, as⟩
        · rw [hm3] at h3head
          rcases hm2 : s2 with _ | ⟨b, bs⟩
          · exact absurd hm2 hs2ne
          · rw [hm2] at h3head
            simp at h3head
        · rw [hm3] at hd
          simp only [List.cons_append, List.head?_cons, Option.some.injEq] at hd
          apply hhead2
          rw [← h3head, hm3, ← hd]
          rfl
      · rw [if_neg h] at hd
        exact hhead2 d (h3head ▸ hd)
    by_cases h : s5.isEmpty = true
    · rw [if_pos h] at hc
      have hcc : c = 'c' := by
        rw [show (("collection").toList.head?) = some 'c' from rfl] at hc
        exact ((Option.some.injEq _ _).mp hc).symm
      subst hcc
      decide
    · rw [if_neg h] at hc
      apply hhead4
      have hdw : s4.reverse.dropWhile (fun c => c == '-' || c == '_') ≠ [] := by
        intro he
        rw [hs5, he] at h
        simp at h
      rw [hs5, List.head?_reverse, getLast?_dropWhile _ _ hdw, List.getLast?_reverse] at hc
      exact hc

/-- Claim C2: in `chunk_hierarchical` the claim requires all children of one
group of `children_per_parent` consecutive children to share one newly
generated `parent_chunk_id`. The code calls `uuid4()` inside the per-child
loop — contradicting its own comment "Create parent chunk ID (same for all
children in this parent group)" — so each child receives a distinct fresh
id. With `chunk_size=4, overlap=1, children_per_parent=3` the text
`"abc abc"` yields two children, both in parent group 0 with the same
(correct) `parent_content` and sequence numbers 0,1, yet their
`parent_chunk_id`s are the distinct fresh ids 0 and 1. -/
theorem chunk_hierarchical_fresh_parent_ids :
    ((TextChunker.chunk_hierarchical { chunk_size := 4, overlap := 1, children_per_parent := 3 }
        0 () ("abc abc").toList).map (fun h => h.metadata.parent_chunk_id)) = [0, 1] ∧
    ((TextChunker.chunk_hierarchical { chunk_size := 4, overlap := 1, children_per_parent := 3 }
        0 () ("abc abc").toList).map (fun h => h.metadata.sequence_number)) = [0, 1] ∧
    ((TextChunker.chunk_hierarchical { chunk_size := 4, overlap := 1, children_per_parent := 3 }
        0 () ("abc abc").toList).map (fun h => h.metadata.parent_content)) =
      [("abc\n\nabc").toList, ("abc\n\nabc").toList] ∧
    ((TextChunker.chunk_hierarchical { chunk_size := 4, overlap := 1, children_per_parent := 3 }
        0 () ("abc abc").toList).map (fun h => h.text)) =
      [("abc").toList, ("abc").toList] := by
  refine ⟨?_, ?_, ?_, ?_⟩ <;> decide

/-- Claim C8: the claim requires `sequence_number` to be unique and strictly
increasing across the whole document even when the parser yields several text
segments. `ingest_book` calls `chunk_hierarchical` per segment and
concatenates; the chunker numbers children from 0 within each call, so a
two-segment document stores the duplicate sequence numbers `[0, 0]`. -/
theorem ingest_segments_sequence_numbers_restart :
    ((BookIngestionService.ingest_segments {}
        [((), ("One sentence here.").toList), ((), ("Another line.").toList)]).map
      (fun h => h.metadata.sequence_number)) = [0, 0] := by
  decide

/-- Claim C1: the claim requires `QueryResponse.sources` to be exactly the
un-expanded (primary) list returned by the vector search, with only the
expanded set feeding generation. In `QueryService.query` the variable
`book_chunks` is the value of `_retrieve_book_chunks`, which has already
applied `get_neighbor_chunks`, and that expanded list is returned as
`sources`: with the search returning only `hitChunk` and a window of 1, the
response attributes `[neighborChunk, hitChunk]` instead of `[hitChunk]` —
neighbor expansion does alter the attribution sources. -/
theorem query_sources_are_expanded :
    QueryService._retrieve_book_chunks expansionService expansionRequest =
      [neighborChunk, hitChunk] ∧
    expansionService.vs_search (expansionService.embed_query expansionRequest.query)
      expansionRequest.session_id 5 = [hitChunk] ∧
    (QueryService.query expansionService expansionRequest).sources =
      [neighborChunk, hitChunk] ∧
    [neighborChunk, hitChunk] ≠ [hitChunk] := by
  exact ⟨by decide, by decide, by decide, by decide⟩

/-- Claim C5: an external knowledge source that is not configured (no
manager), unknown to the registry, or whose `search_context` raises
contributes `[]` to the fused context and never fails the query: the query
result equals that of the same service with no MCP manager at all, so local
retrieval, fusion and generation all still complete. -/
theorem mcp_failures_absorbed (svc : QueryService.Service) (m : MCPManager.Manager)
    (req : QueryRequest) (hm : svc.mcp_manager = some m)
    (hc : sourceDead m "compliance" req) (hms : sourceDead m "mslearn" req) :
    (∀ (svc2 : QueryService.Service) (req2 : QueryRequest) (s : String),
      svc2.mcp_manager = none → QueryService._retrieve_mcp_context svc2 s req2 = []) ∧
    (∀ s, sourceDead m s req → QueryService._retrieve_mcp_context svc s req = []) ∧
    QueryService.query svc req = QueryService.query { svc with mcp_manager := none } req := by
  have habsorb : ∀ (svc2 : QueryService.Service) (req2 : QueryRequest) (s : String),
      svc2.mcp_manager = none → QueryService._retrieve_mcp_context svc2 s req2 = [] := by
    intro svc2 req2 s h
    simp [QueryService._retrieve_mcp_context, h]
  have hdead : ∀ s, sourceDead m s req → QueryService._retrieve_mcp_context svc s req = [] := by
    intro s hd
    simp only [QueryService._retrieve_mcp_context, hm]
    by_cases hlen : m.adapters.length = 0
    · rw [if_pos hlen]
    · rw [if_neg hlen]
      simp only [MCPManager.Manager.search_context]
      rcases hd with hnone | ⟨a, e, ha, he⟩
      · rw [hnone]
        rfl
      · simp [ha, he]
  refine ⟨habsorb, hdead, ?_⟩
  have h1 : QueryService._retrieve_mcp_context svc "compliance" req = [] :=
    hdead "compliance" hc
  have h2 : QueryService._retrieve_mcp_context svc "mslearn" req = [] :=
    hdead "mslearn" hms
  have h1' : QueryService._retrieve_mcp_context { svc with mcp_manager := none }
      "compliance" req = [] := habsorb _ _ _ rfl
  have h2' : QueryService._retrieve_mcp_context { svc with mcp_manager := none }
      "mslearn" req = [] := habsorb _ _ _ rfl
  simp only [QueryService.query, h1, h2, h1', h2']
  rfl

/-- Witness for C5: the service whose only source raises answers the query
exactly as a service without external sources would, and the raising source
contributes `[]`. -/
theorem mcp_failures_absorbed_witness :
    QueryService._retrieve_mcp_context poisonService "compliance" poisonRequest = [] ∧
    QueryService._retrieve_mcp_context poisonService "mslearn" poisonRequest = [] ∧
    QueryService.query poisonService poisonRequest =
      QueryService.query { poisonService with mcp_manager := none } poisonRequest := by
  have h := mcp_failures_absorbed poisonService poisonManager poisonRequest rfl
    (Or.inr ⟨poisonAdapter, "boom", rfl, rfl⟩) (Or.inl rfl)
  exact ⟨h.2.1 "compliance" (Or.inr ⟨poisonAdapter, "boom", rfl, rfl⟩),
    h.2.1 "mslearn" (Or.inl rfl), h.2.2⟩

/-- Membership in a stable insertion. -/
theorem mem_insertLe {α : Type} (le : α → α → Bool) (a x : α) (l : List α) :
    x ∈ insertLe le a l ↔ x = a ∨ x ∈ l := by
  induction l with
  | nil => simp [insertLe]
  | cons b bs ih =>
    rw [insertLe]
    by_cases h : le a b = true
    · rw [if_pos h]
      simp [List.mem_cons]
    · rw [if_neg h]
      simp only [List.mem_cons, ih]
      tauto

/-- A stable insertion is a permutation of consing. -/
theorem insertLe_perm {α : Type} (le : α → α → Bool) (a : α) (l : List α) :
    List.Perm (insertLe le a l) (a :: l) := by
  induction l with
  | nil => simp [insertLe]
  | cons b bs ih =>
    rw [insertLe]
    by_cases h : le a b = true
    · rw [if_pos h]
    · rw [if_neg h]
      exact (List.Perm.cons b ih).trans (List.Perm.swap a b bs)

/-- The stable sort permutes its input. -/
theorem stableSort_perm {α : Type} (le : α → α → Bool) (l : List α) :
    List.Perm (stableSort le l) l := by
  induction l with
  | nil => simp [stableSort]
  | cons x xs ih =>
    exact (insertLe_perm le x (stableSort le xs)).trans (List.Perm.cons x ih)

/-- Inserting into a sorted list keeps it sorted, given a total transitive
comparison. -/
theorem pairwise_insertLe {α : Type} (le : α → α → Bool)
    (htrans : ∀ a b c, le a b = true → le b c = true → le a c = true)
    (htot : ∀ a b, le a b = true ∨ le b a = true) (a : α) (l : List α)
    (hl : List.Pairwise (fun x y => le x y = true) l) :
    List.Pairwise (fun x y => le x y = true) (insertLe le a l) := by
  induction l with
  | nil => simp [insertLe]
  | cons b bs ih =>
    rw [insertLe]
    rcases List.pairwise_cons.mp hl with ⟨hb, hbs⟩
    by_cases h : le a b = true
    · rw [if_pos h]
      refine List.pairwise_cons.mpr ⟨?_, hl⟩
      intro x hx
      rcases List.mem_cons.mp hx with rfl | hx
      · exact h
      · exact htrans a b x h (hb x hx)
    · rw [if_neg h]
      refine List.pairwise_cons.mpr ⟨?_, ih hbs⟩
      intro x hx
      rcases (mem_insertLe le a x bs).mp hx with hxa | hx
      · subst hxa
        rcases htot x b with hab | hba
        · exact absurd hab h
        · exact hba
      · exact hb x hx

/-- The stable sort sorts, given a total transitive comparison. -/
theorem pairwise_stableSort {α : Type} (le : α → α → Bool)
    (htrans : ∀ a b c, le a b = true → le b c = true → le a c = true)
    (htot : ∀ a b, le a b = true ∨ le b a = true) (l : List α) :
    List.Pairwise (fun x y => le x y = true) (stableSort le l) := by
  induction l with
  | nil => simp [stableSort]
  | cons x xs ih => exact pairwise_insertLe le htrans htot x (stableSort le xs) ih

/-- `charListLt` is transitive. -/
theorem charListLt_trans : ∀ {xs ys zs : List Char}, ChromaVectorStore.charListLt xs ys = true →
    ChromaVectorStore.charListLt ys zs = true → ChromaVectorStore.charListLt xs zs = true := by
  intro xs
  induction xs with
  | nil =>
    intro ys zs h1 h2
    cases ys with
    | nil => exact h2
    | cons b bs =>
      cases zs with
      | nil => simp [ChromaVectorStore.charListLt] at h2
      | cons c cs => rfl
  | cons a as ih =>
    intro ys zs h1 h2
    cases ys with
    | nil => simp [ChromaVectorStore.charListLt] at h1
    | cons b bs =>
      cases zs with
      | nil => simp [ChromaVectorStore.charListLt] at h2
      | cons c cs =>
        simp only [ChromaVectorStore.charListLt, Bool.or_eq_true, Bool.and_eq_true,
          decide_eq_true_eq] at h1 h2 ⊢
        rcases h1 with h1 | ⟨rfl, h1⟩
        · rcases h2 with h2 | ⟨rfl, h2⟩
          · exact Or.inl (lt_trans h1 h2)
          · exact Or.inl h1
        · rcases h2 with h2 | ⟨rfl, h2⟩
          · exact Or.inl h2
          · exact Or.inr ⟨rfl, ih h1 h2⟩

/-- `charListLt` is trichotomous. -/
theorem charListLt_total : ∀ xs ys : List Char, ChromaVectorStore.charListLt xs ys = true ∨
    ChromaVectorStore.charListLt ys xs = true ∨ xs = ys := by
  intro xs
  induction xs with
  | nil =>
    intro ys
    cases ys with
    | nil => exact Or.inr (Or.inr rfl)
    | cons b bs => exact Or.inl rfl
  | cons a as ih =>
    intro ys
    cases ys with
    | nil => exact Or.inr (Or.inl rfl)
    | cons b bs =>
      rcases lt_trichotomy a b with hab | rfl | hba
      · refine Or.inl ?_
        simp only [ChromaVectorStore.charListLt, Bool.or_eq_true, decide_eq_true_eq]
        exact Or.inl hab
      · rcases ih bs with h | h | rfl
        · exact Or.inl (by simp [ChromaVectorStore.charListLt, h])
        · exact Or.inr (Or.inl (by simp [ChromaVectorStore.charListLt, h]))
        · exact Or.inr (Or.inr rfl)
      · refine Or.inr (Or.inl ?_)
        simp only [ChromaVectorStore.charListLt, Bool.or_eq_true, decide_eq_true_eq]
        exact Or.inl hba

/-- Equal character lists mean equal strings. -/
theorem string_eq_of_toList_eq {a b : String} (h : a.toList = b.toList) : a = b := by
  cases a
  cases b
  exact congrArg String.mk h

/-- `neighborLe` is total. -/
theorem neighborLe_total (a b : Chunk) :
    ChromaVectorStore.neighborLe a b = true ∨ ChromaVectorStore.neighborLe b a = true := by
  unfold ChromaVectorStore.neighborLe
  simp only [Bool.or_eq_true, Bool.and_eq_true, decide_eq_true_eq]
  rcases charListLt_total a.book_id.toList b.book_id.toList with h | h | h
  · exact Or.inl (Or.inl h)
  · exact Or.inr (Or.inl h)
  · have hb : a.book_id = b.book_id := string_eq_of_toList_eq h
    rcases Int.le_total a.sequence_number b.sequence_number with hs | hs
    · exact Or.inl (Or.inr ⟨hb, hs⟩)
    · exact Or.inr (Or.inr ⟨hb.symm, hs⟩)

/-- `neighborLe` is transitive. -/
theorem neighborLe_trans (a b c : Chunk) (h1 : ChromaVectorStore.neighborLe a b = true)
    (h2 : ChromaVectorStore.neighborLe b c = true) :
    ChromaVectorStore.neighborLe a c = true := by
  unfold ChromaVectorStore.neighborLe at h1 h2 ⊢
  simp only [Bool.or_eq_true, Bool.and_eq_true, decide_eq_true_eq] at h1 h2 ⊢
  rcases h1 with h1 | ⟨hb1, hs1⟩
  · rcases h2 with h2 | ⟨hb2, hs2⟩
    · exact Or.inl (charListLt_trans h1 h2)
    · rw [← hb2]
      exact Or.inl h1
  · rcases h2 with h2 | ⟨hb2, hs2⟩
    · rw [hb1]
      exact Or.inl h2
    · exact Or.inr ⟨hb1.trans hb2, le_trans hs1 hs2⟩

/-- A `dictInsert` result pair is either an old pair or the inserted one. -/
theorem dictInsert_mem {m : List (String × Chunk)} {k : String} {v : Chunk}
    (p : String × Chunk) (hp : p ∈ ChromaVectorStore.dictInsert m k v) :
    p ∈ m ∨ p = (k, v) := by
  unfold ChromaVectorStore.dictInsert at hp
  by_cases hany : m.any (fun p => p.1 = k) = true
  · rw [if_pos hany] at hp
    obtain ⟨q, hq, hfq⟩ := List.mem_map.mp hp
    by_cases hk : q.1 = k
    · right
      rw [if_pos hk] at hfq
      rw [← hfq, hk]
    · left
      rw [if_neg hk] at hfq
      rw [← hfq]
      exact hq
  · rw [if_neg hany] at hp
    rcases List.mem_append.mp hp with h | h
    · exact Or.inl h
    · exact Or.inr (List.mem_singleton.mp h)

/-- `dictInsert` preserves the id-equals-key invariant. -/
theorem dictInsert_id_inv {m : List (String × Chunk)} {k : String} {v : Chunk}
    (hv : v.id = k) (hm : ∀ p ∈ m, p.2.id = p.1) :
    ∀ p ∈ ChromaVectorStore.dictInsert m k v, p.2.id = p.1 := by
  intro p hp
  rcases dictInsert_mem p hp with h | h
  · exact hm p h
  · rw [h]
    exact hv

/-- `dictInsert` preserves key uniqueness. -/
theorem dictInsert_keys_nodup {m : List (String × Chunk)} {k : String} {v : Chunk}
    (hm : (m.map Prod.fst).Nodup) :
    ((ChromaVectorStore.dictInsert m k v).map Prod.fst).Nodup := by
  unfold ChromaVectorStore.dictInsert
  by_cases hany : m.any (fun p => p.1 = k) = true
  · rw [if_pos hany]
    have hmap : (m.map (fun p => if p.1 = k then (p.1, v) else p)).map Prod.fst =
        m.map Prod.fst := by
      rw [List.map_map]
      apply List.map_congr_left
      intro p _
      by_cases hk : p.1 = k
      · simp [hk]
      · simp [hk]
    rw [hmap]
    exact hm
  · rw [if_neg hany]
    rw [List.map_append]
    refine List.Nodup.append hm (List.nodup_singleton k) ?_
    intro x hx hk
    rw [List.map_singleton, List.mem_singleton] at hk
    subst hk
    obtain ⟨q, hq, hqk⟩ := List.mem_map.mp hx
    simp only [List.any_eq_true, decide_eq_true_eq] at hany
    exact hany ⟨q, hq, hqk⟩

/-- `dictInsert` keeps every existing key and adds the inserted key. -/
theorem dictInsert_key_mem {m : List (String × Chunk)} {k : String} {v : Chunk} (k0 : String)
    (h : (∃ p ∈ m, p.1 = k0) ∨ k0 = k) :
    ∃ p ∈ ChromaVectorStore.dictInsert m k v, p.1 = k0 := by
  unfold ChromaVectorStore.dictInsert
  by_cases hany : m.any (fun p => p.1 = k) = true
  · rw [if_pos hany]
    rcases h with ⟨q, hq, hk0⟩ | rfl
    · refine ⟨if q.1 = k then (q.1, v) else q, List.mem_map.mpr ⟨q, hq, rfl⟩, ?_⟩
      by_cases hk : q.1 = k
      · rw [if_pos hk]
        exact hk0
      · rw [if_neg hk]
        exact hk0
    · simp only [List.any_eq_true, decide_eq_true_eq] at hany
      obtain ⟨q, hq, hqk⟩ := hany
      refine ⟨if q.1 = k0 then (q.1, v) else q, List.mem_map.mpr ⟨q, hq, rfl⟩, ?_⟩
      rw [if_pos hqk]
      exact hqk
  · rw [if_neg hany]
    rcases h with ⟨q, hq, hk0⟩ | rfl
    · exact ⟨q, List.mem_append_left _ hq, hk0⟩
    · exact ⟨(k0, v), List.mem_append_right _ (List.mem_singleton.mpr rfl), rfl⟩

/-- Every value of the dedup fold is an old value or one of the folded
chunks. -/
theorem dedupFold_values (l : List Chunk) :
    ∀ (m : List (String × Chunk)) (p : String × Chunk),
      p ∈ l.foldl (fun m c => ChromaVectorStore.dictInsert m c.id c) m →
      p ∈ m ∨ p.2 ∈ l := by
  induction l with
  | nil =>
    intro m p hp
    exact Or.inl hp
  | cons c cs ih =>
    intro m p hp
    rw [List.foldl_cons] at hp
    rcases ih _ p hp with h | h
    · rcases dictInsert_mem p h with h2 | h2
      · exact Or.inl h2
      · right
        rw [h2]
        exact List.mem_cons_self c cs
    · right
      exact List.mem_cons_of_mem c h

/-- The dedup fold preserves the id-equals-key invariant. -/
theorem dedupFold_id_inv (l : List Chunk) :
    ∀ (m : List (String × Chunk)), (∀ p ∈ m, p.2.id = p.1) →
      ∀ p ∈ l.foldl (fun m c => ChromaVectorStore.dictInsert m c.id c) m, p.2.id = p.1 := by
  induction l with
  | nil => intro m hm p hp; exact hm p hp
  | cons c cs ih =>
    intro m hm p hp
    rw [List.foldl_cons] at hp
    exact ih _ (dictInsert_id_inv rfl hm) p hp

/-- The dedup fold preserves key uniqueness. -/
theorem dedupFold_keys_nodup (l : List Chunk) :
    ∀ (m : List (String × Chunk)), (m.map Prod.fst).Nodup →
      ((l.foldl (fun m c => ChromaVectorStore.dictInsert m c.id c) m).map Prod.fst).Nodup := by
  induction l with
  | nil => intro m hm; exact hm
  | cons c cs ih =>
    intro m hm
    rw [List.foldl_cons]
    exact ih _ (dictInsert_keys_nodup hm)

/-- The dedup fold keeps every existing key. -/
theorem dedupFold_key_mono (l : List Chunk) :
    ∀ (m : List (String × Chunk)) (k0 : String), (∃ p ∈ m, p.1 = k0) →
      ∃ p ∈ l.foldl (fun m c => ChromaVectorStore.dictInsert m c.id c) m, p.1 = k0 := by
  induction l with
  | nil => intro m k0 h; exact h
  | cons c cs ih =>
    intro m k0 h
    rw [List.foldl_cons]
    exact ih _ k0 (dictInsert_key_mem k0 (Or.inl h))

/-- Every folded chunk's id ends up as a key of the dedup fold. -/
theorem dedupFold_complete (l : List Chunk) :
    ∀ (m : List (String × Chunk)) (c : Chunk), c ∈ l →
      ∃ p ∈ l.foldl (fun m c => ChromaVectorStore.dictInsert m c.id c) m, p.1 = c.id := by
  induction l with
  | nil => intro m c hc; exact absurd hc (List.not_mem_nil c)
  | cons c0 cs ih =>
    intro m c hc
    rw [List.foldl_cons]
    rcases List.mem_cons.mp hc with rfl | hc
    · exact dedupFold_key_mono cs _ c.id (dictInsert_key_mem c.id (Or.inr rfl))
    · exact ih _ c hc

/-- `dedupById` only returns input chunks. -/
theorem dedupById_subset (l : List Chunk) : ∀ x ∈ ChromaVectorStore.dedupById l, x ∈ l := by
  intro x hx
  unfold ChromaVectorStore.dedupById at hx
  obtain ⟨p, hp, hpx⟩ := List.mem_map.mp hx
  rcases dedupFold_values l [] p hp with h | h
  · exact absurd h (List.not_mem_nil p)
  · rw [← hpx]
    exact h

/-- `dedupById` returns distinct chunk ids. -/
theorem dedupById_ids_nodup (l : List Chunk) :
    ((ChromaVectorStore.dedupById l).map (fun c => c.id)).Nodup := by
  unfold ChromaVectorStore.dedupById
  rw [List.map_map]
  have hinv := dedupFold_id_inv l [] (by intro p hp; exact absurd hp (List.not_mem_nil p))
  have hmap : (l.foldl (fun m c => ChromaVectorStore.dictInsert m c.id c) []).map
      ((fun c => c.id) ∘ Prod.snd) =
      (l.foldl (fun m c => ChromaVectorStore.dictInsert m c.id c) []).map Prod.fst := by
    apply List.map_congr_left
    intro p hp
    exact hinv p hp
  rw [hmap]
  exact dedupFold_keys_nodup l []
    (by rw [show (([] : List (String × Chunk)).map Prod.fst) = [] from rfl]; exact List.nodup_nil)

/-- Every input chunk id survives `dedupById`. -/
theorem dedupById_complete (l : List Chunk) (c : Chunk) (hc : c ∈ l) :
    ∃ x ∈ ChromaVectorStore.dedupById l, x.id = c.id := by
  obtain ⟨p, hp, hpk⟩ := dedupFold_complete l [] c hc
  have hinv := dedupFold_id_inv l [] (by intro q hq; exact absurd hq (List.not_mem_nil q)) p hp
  exact ⟨p.2, List.mem_map.mpr ⟨p, hp, rfl⟩, by rw [hinv, hpk]⟩

/-- Membership in `range(-window, window + 1)`. -/
theorem mem_offsets {window o : Int} (hw : 1 ≤ window) :
    o ∈ ChromaVectorStore.offsets window ↔ -window ≤ o ∧ o ≤ window := by
  unfold ChromaVectorStore.offsets
  constructor
  · intro h
    obtain ⟨a, ha, hao⟩ := List.mem_map.mp h
    rw [List.mem_range] at ha
    rw [Int.ofNat_eq_natCast] at hao
    omega
  · intro h
    refine List.mem_map.mpr ⟨(o + window).toNat, List.mem_range.mpr (by omega), ?_⟩
    rw [Int.ofNat_eq_natCast]
    omega

/-- Soundness of the per-chunk target sequence numbers. -/
theorem mem_targetSeqs_sound {seq window t : Int} (hw : 1 ≤ window)
    (h : t ∈ ChromaVectorStore.targetSeqs seq window) :
    0 ≤ t ∧ seq - window ≤ t ∧ t ≤ seq + window := by
  unfold ChromaVectorStore.targetSeqs at h
  obtain ⟨o, ho, heq⟩ := List.mem_filterMap.mp h
  by_cases hpos : 0 ≤ seq + o
  · rw [if_pos hpos] at heq
    obtain ⟨h1, h2⟩ := (mem_offsets hw).mp ho
    injection heq with heq
    subst heq
    exact ⟨hpos, by omega, by omega⟩
  · rw [if_neg hpos] at heq
    exact absurd heq (by simp)

/-- A hit's own (non-negative) sequence number is always a target. -/
theorem self_mem_targetSeqs {seq window : Int} (hw : 1 ≤ window) (hs : 0 ≤ seq) :
    seq ∈ ChromaVectorStore.targetSeqs seq window := by
  unfold ChromaVectorStore.targetSeqs
  rw [List.mem_filterMap]
  refine ⟨0, (mem_offsets hw).mpr ⟨by omega, by omega⟩, ?_⟩
  rw [if_pos (by omega)]
  rw [Int.add_zero]

/-- Soundness of one `chunks_to_fetch` insertion. -/
theorem upsertFetch_sound {m : List (String × List Int)} {b0 : String} {ts : List Int}
    {p : String × List Int} (hp : p ∈ ChromaVectorStore.upsertFetch m b0 ts) :
    ∀ t ∈ p.2, (∃ q ∈ m, q.1 = p.1 ∧ t ∈ q.2) ∨ (p.1 = b0 ∧ t ∈ ts) := by
  intro t ht
  unfold ChromaVectorStore.upsertFetch at hp
  by_cases hany : m.any (fun p => p.1 = b0) = true
  · rw [if_pos hany] at hp
    obtain ⟨q, hq, hfq⟩ := List.mem_map.mp hp
    by_cases hk : q.1 = b0
    · rw [if_pos hk] at hfq
      rw [← hfq] at ht
      rcases List.mem_append.mp ht with h | h
      · exact Or.inl ⟨q, hq, by rw [← hfq], h⟩
      · refine Or.inr ⟨by rw [← hfq, hk], List.mem_of_mem_filter h⟩
    · rw [if_neg hk] at hfq
      rw [← hfq] at ht
      exact Or.inl ⟨q, hq, by rw [← hfq], ht⟩
  · rw [if_neg hany] at hp
    rcases List.mem_append.mp hp with h | h
    · exact Or.inl ⟨p, h, rfl, ht⟩
    · rw [List.mem_singleton] at h
      rw [h] at ht ⊢
      exact Or.inr ⟨rfl, ht⟩

/-- One insertion makes every target of the inserted book present. -/
theorem upsertFetch_self {m : List (String × List Int)} {b0 : String} {ts : List Int} :
    ∃ p ∈ ChromaVectorStore.upsertFetch m b0 ts, p.1 = b0 ∧ ∀ t ∈ ts, t ∈ p.2 := by
  unfold ChromaVectorStore.upsertFetch
  by_cases hany : m.any (fun p => p.1 = b0) = true
  · rw [if_pos hany]
    simp only [List.any_eq_true, decide_eq_true_eq] at hany
    obtain ⟨q, hq, hqk⟩ := hany
    refine ⟨(q.1, q.2 ++ ts.filter (fun t => !(q.2.contains t))),
      List.mem_map.mpr ⟨q, hq, by rw [if_pos hqk]⟩, hqk, ?_⟩
    intro t ht
    by_cases hmem : t ∈ q.2
    · exact List.mem_append_left _ hmem
    · refine List.mem_append_right _ (List.mem_filter.mpr ⟨ht, ?_⟩)
      simpa using hmem
  · rw [if_neg hany]
    exact ⟨(b0, ts), List.mem_append_right _ (List.mem_singleton.mpr rfl), rfl, fun t ht => ht⟩

/-- An insertion keeps every existing pair's key and targets. -/
theorem upsertFetch_mono {m : List (String × List Int)} {b0 : String} {ts : List Int}
    {q : String × List Int} (hq : q ∈ m) :
    ∃ p ∈ ChromaVectorStore.upsertFetch m b0 ts, p.1 = q.1 ∧ ∀ t ∈ q.2, t ∈ p.2 := by
  unfold ChromaVectorStore.upsertFetch
  by_cases hany : m.any (fun p => p.1 = b0) = true
  · rw [if_pos hany]
    refine ⟨if q.1 = b0 then (q.1, q.2 ++ ts.filter (fun t => !(q.2.contains t))) else q,
      List.mem_map.mpr ⟨q, hq, rfl⟩, ?_, ?_⟩
    · by_cases hk : q.1 = b0
      · rw [if_pos hk]
      · rw [if_neg hk]
    · intro t ht
      by_cases hk : q.1 = b0
      · rw [if_pos hk]
        exact List.mem_append_left _ ht
      · rw [if_neg hk]
        exact ht
  · rw [if_neg hany]
    exact ⟨q, List.mem_append_left _ hq, rfl, fun t ht => ht⟩

/-- Soundness of the fetch-map fold, for an arbitrary predicate `P` on
book/target pairs. -/
theorem buildFetch_fold_sound (window : Int) (P : String → Int → Prop) :
    ∀ (cs : List Chunk) (m : List (String × List Int)),
      (∀ q ∈ m, ∀ t ∈ q.2, P q.1 t) →
      (∀ c ∈ cs, ∀ t ∈ ChromaVectorStore.targetSeqs c.sequence_number window, P c.book_id t) →
      ∀ p ∈ cs.foldl (fun m c =>
        ChromaVectorStore.upsertFetch m c.book_id
          (ChromaVectorStore.targetSeqs c.sequence_number window)) m,
      ∀ t ∈ p.2, P p.1 t := by
  intro cs
  induction cs with
  | nil => intro m hm _ p hp t ht; exact hm p hp t ht
  | cons c cs ih =>
    intro m hm hcs p hp t ht
    rw [List.foldl_cons] at hp
    refine ih _ ?_ (fun c' hc' => hcs c' (List.mem_cons_of_mem c hc')) p hp t ht
    intro q hq u hu
    rcases upsertFetch_sound hq u hu with ⟨q', hq', hk, hu'⟩ | ⟨hk, hu'⟩
    · rw [← hk]
      exact hm q' hq' u hu'
    · rw [hk]
      exact hcs c (List.mem_cons_self c cs) u hu'

/-- The fetch-map fold keeps existing keys with their targets. -/
theorem buildFetch_fold_mono (window : Int) :
    ∀ (cs : List Chunk) (m : List (String × List Int)) (q : String × List Int), q ∈ m →
      ∃ p ∈ cs.foldl (fun m c =>
        ChromaVectorStore.upsertFetch m c.book_id
          (ChromaVectorStore.targetSeqs c.sequence_number window)) m,
      p.1 = q.1 ∧ ∀ t ∈ q.2, t ∈ p.2 := by
  intro cs
  induction cs with
  | nil => intro m q hq; exact ⟨q, hq, rfl, fun t ht => ht⟩
  | cons c cs ih =>
    intro m q hq
    rw [List.foldl_cons]
    obtain ⟨q1, hq1, hk1, hsub1⟩ := @upsertFetch_mono m c.book_id
      (ChromaVectorStore.targetSeqs c.sequence_number window) q hq
    obtain ⟨p, hp, hk, hsub⟩ := ih _ q1 hq1
    exact ⟨p, hp, by rw [hk, hk1], fun t ht => hsub t (hsub1 t ht)⟩

/-- The fetch-map fold records every folded chunk's own sequence number. -/
theorem buildFetch_fold_complete (window : Int) (hw : 1 ≤ window) :
    ∀ (cs : List Chunk) (m : List (String × List Int)) (c : Chunk), c ∈ cs →
      0 ≤ c.sequence_number →
      ∃ p ∈ cs.foldl (fun m c =>
        ChromaVectorStore.upsertFetch m c.book_id
          (ChromaVectorStore.targetSeqs c.sequence_number window)) m,
      p.1 = c.book_id ∧ c.sequence_number ∈ p.2 := by
  intro cs
  induction cs with
  | nil => intro m c hc _; exact absurd hc (List.not_mem_nil c)
  | cons c0 cs ih =>
    intro m c hc hs
    rw [List.foldl_cons]
    rcases List.mem_cons.mp hc with rfl | hc
    · obtain ⟨q, hq, hk, hsub⟩ := @upsertFetch_self m c.book_id
        (ChromaVectorStore.targetSeqs c.sequence_number window)
      obtain ⟨p, hp, hk2, hsub2⟩ := buildFetch_fold_mono window cs _ q hq
      exact ⟨p, hp, by rw [hk2, hk], hsub2 _ (hsub _ (self_mem_targetSeqs hw hs))⟩
    · exact ih _ c hc hs

/-- Every chunk's own sequence number is fetched for its book. -/
theorem buildFetch_complete {chunks : List Chunk} {window : Int} (hw : 1 ≤ window)
    (c : Chunk) (hc : c ∈ chunks) (hs : 0 ≤ c.sequence_number) :
    ∃ p ∈ ChromaVectorStore.buildFetch chunks window, p.1 = c.book_id ∧
      c.sequence_number ∈ p.2 :=
  buildFetch_fold_complete window hw chunks [] c hc hs

/-- Claim C6: for a non-empty hit list over an existing collection that
stores every hit (with non-negative sequence numbers), `get_neighbor_chunks`
with window `W ≥ 1` returns a list that contains every input chunk id, has no
duplicate ids, is sorted ascending by `(book_id, sequence_number)`, contains
no negative sequence number, and only contains chunks within `±W` of some
input chunk of the same book. -/
theorem get_neighbor_chunks_spec
    (client : ChromaVectorStore.Client) (chunks : List Chunk) (cid : String) (window : Int)
    (col : List ChromaVectorStore.StoredChunk)
    (hne : chunks ≠ []) (hw : 1 ≤ window)
    (hcol : (client.collections.find? (fun p =>
        p.1.toList = ChromaVectorStore._sanitize_collection_name cid.toList)).map
        (fun x => x.2) = some col)
    (hstored : ∀ c ∈ chunks, 0 ≤ c.sequence_number ∧ ∃ s ∈ col,
      s.id = c.id ∧ s.book_id = c.book_id ∧ s.sequence_number = c.sequence_number) :
    (∀ c ∈ chunks, ∃ x ∈ ChromaVectorStore.get_neighbor_chunks client chunks cid window,
      x.id = c.id) ∧
    ((ChromaVectorStore.get_neighbor_chunks client chunks cid window).map
      (fun x => x.id)).Nodup ∧
    List.Pairwise (fun x y => ChromaVectorStore.neighborLe x y = true)
      (ChromaVectorStore.get_neighbor_chunks client chunks cid window) ∧
    (∀ x ∈ ChromaVectorStore.get_neighbor_chunks client chunks cid window,
      0 ≤ x.sequence_number) ∧
    (∀ x ∈ ChromaVectorStore.get_neighbor_chunks client chunks cid window,
      ∃ c ∈ chunks, x.book_id = c.book_id ∧
        c.sequence_number - window ≤ x.sequence_number ∧
        x.sequence_number ≤ c.sequence_number + window) := by
  have hif : (chunks.isEmpty || decide (window < 1)) = false := by
    have h1 : chunks.isEmpty = false := by
      cases chunks with
      | nil => exact absurd rfl hne
      | cons a l => rfl
    have h2 : decide (window < 1) = false := decide_eq_false (by omega)
    rw [h1, h2]
    rfl
  have hr : ChromaVectorStore.get_neighbor_chunks client chunks cid window =
      stableSort ChromaVectorStore.neighborLe (ChromaVectorStore.dedupById
        ((ChromaVectorStore.buildFetch chunks window).flatMap (fun bs =>
          (col.filter (fun s => s.book_id = bs.1)).filterMap (fun s =>
            if bs.2.contains s.sequence_number then
              some (ChromaVectorStore.decodeChunk bs.1 s) else none)))) := by
    unfold ChromaVectorStore.get_neighbor_chunks
    rw [hif]
    simp only [Bool.false_eq_true, if_false, hcol]
  set allC := (ChromaVectorStore.buildFetch chunks window).flatMap (fun bs =>
    (col.filter (fun s => s.book_id = bs.1)).filterMap (fun s =>
      if bs.2.contains s.sequence_number then
        some (ChromaVectorStore.decodeChunk bs.1 s) else none)) with hAll
  have hmemAll : ∀ x, x ∈ allC ↔ ∃ bs ∈ ChromaVectorStore.buildFetch chunks window,
      ∃ s ∈ col, s.book_id = bs.1 ∧ s.sequence_number ∈ bs.2 ∧
        x = ChromaVectorStore.decodeChunk bs.1 s := by
    intro x
    rw [hAll]
    simp only [List.mem_flatMap, List.mem_filterMap, List.mem_filter, decide_eq_true_eq]
    constructor
    · rintro ⟨bs, hbs, s, ⟨hs, hbk⟩, hsome⟩
      by_cases hc : bs.2.contains s.sequence_number = true
      · rw [if_pos hc] at hsome
        injection hsome with hsome
        exact ⟨bs, hbs, s, hs, hbk, by simpa using hc, hsome.symm⟩
      · rw [if_neg hc] at hsome
        cases hsome
    · rintro ⟨bs, hbs, s, hs, hbk, hcont, rfl⟩
      refine ⟨bs, hbs, s, ⟨hs, hbk⟩, ?_⟩
      rw [if_pos (by simpa using hcont)]
  have hsound := buildFetch_fold_sound window
    (fun b t => 0 ≤ t ∧ ∃ c ∈ chunks, c.book_id = b ∧
      c.sequence_number - window ≤ t ∧ t ≤ c.sequence_number + window) chunks []
    (by intro q hq; exact absurd hq (List.not_mem_nil q))
    (by
      intro c hc t htt
      obtain ⟨h0, h1, h2⟩ := mem_targetSeqs_sound hw htt
      exact ⟨h0, c, hc, rfl, h1, h2⟩)
  have hperm : List.Perm (ChromaVectorStore.get_neighbor_chunks client chunks cid window)
      (ChromaVectorStore.dedupById allC) := by
    rw [hr]
    exact stableSort_perm _ _
  refine ⟨?_, ?_, ?_, ?_, ?_⟩
  · intro c hc
    obtain ⟨hs0, s, hsmem, hsid, hsbook, hsseq⟩ := hstored c hc
    obtain ⟨p, hp, hpk, hpmem⟩ := buildFetch_complete hw c hc hs0
    have hx0 : ChromaVectorStore.decodeChunk p.1 s ∈ allC := by
      rw [hmemAll]
      exact ⟨p, hp, s, hsmem, by rw [hsbook, hpk], by rw [hsseq]; exact hpmem, rfl⟩
    obtain ⟨x, hxd, hxid⟩ := dedupById_complete allC _ hx0
    refine ⟨x, hperm.mem_iff.mpr hxd, ?_⟩
    rw [hxid]
    exact hsid
  · have h1 := dedupById_ids_nodup allC
    exact (List.Perm.nodup_iff (List.Perm.map _ hperm)).mpr h1
  · rw [hr]
    exact pairwise_stableSort ChromaVectorStore.neighborLe neighborLe_trans neighborLe_total _
  · intro x hx
    have hxall := dedupById_subset allC x (hperm.mem_iff.mp hx)
    obtain ⟨bs, hbs, s, hsmem, hbk, hcont, rfl⟩ := (hmemAll x).mp hxall
    exact (hsound bs hbs s.sequence_number hcont).1
  · intro x hx
    have hxall := dedupById_subset allC x (hperm.mem_iff.mp hx)
    obtain ⟨bs, hbs, s, hsmem, hbk, hcont, rfl⟩ := (hmemAll x).mp hxall
    obtain ⟨c, hc, hbkc, hlo, hhi⟩ := (hsound bs hbs s.sequence_number hcont).2
    exact ⟨c, hc, hbkc.symm, hlo, hhi⟩


/-- Witness for C6: a concrete one-hit expansion over a two-record
collection. -/
theorem get_neighbor_chunks_spec_witness :
    (∀ x ∈ ChromaVectorStore.get_neighbor_chunks winClient [winChunk] "sess" 1,
      0 ≤ x.sequence_number) ∧
    (∃ x ∈ ChromaVectorStore.get_neighbor_chunks winClient [winChunk] "sess" 1,
      x.id = winChunk.id) := by
  have h := get_neighbor_chunks_spec winClient [winChunk] "sess" 1 [winStored0, winStored1]
    (by decide) (by decide) (by decide) (by decide)
  exact ⟨h.2.2.2.1, h.1 winChunk (by decide)⟩

/-- A list's last element is one of its members. -/
theorem mem_of_getLast?_eq {α : Type} {l : List α} {a : α} (h : l.getLast? = some a) :
    a ∈ l := by
  induction l with
  | nil => simp at h
  | cons b bs ih =>
    cases bs with
    | nil =>
      simp only [List.getLast?_singleton, Option.some.injEq] at h
      rw [← h]
      exact List.mem_singleton.mpr rfl
    | cons b2 bs2 =>
      rw [List.getLast?_cons_cons] at h
      exact List.mem_cons_of_mem b (ih h)

/-- Dropping prefix characters that cannot equal `c` keeps the count of `c`. -/
theorem count_dropWhile_eq (p : Char → Bool) (l : List Char) (c : Char)
    (hc : p c = false) : (l.dropWhile p).count c = l.count c := by
  induction l with
  | nil => rfl
  | cons a as ih =>
    rw [List.dropWhile_cons]
    cases hpa : p a with
    | true =>
      rw [if_pos rfl]
      have hne : (a == c) = false := by
        rw [beq_eq_false_iff_ne]
        intro he
        rw [he, hc] at hpa
        cases hpa
      rw [ih, List.count_cons, hne]
      simp
    | false => rw [if_neg Bool.false_ne_true]

/-- `strip()` keeps the count of every non-whitespace character. -/
theorem count_stripChars_eq (l : List Char) (c : Char) (hc : c.isWhitespace = false) :
    (TextChunker.stripChars l).count c = l.count c := by
  unfold TextChunker.stripChars
  rw [List.count_reverse, count_dropWhile_eq _ _ _ hc, List.count_reverse,
    count_dropWhile_eq _ _ _ hc]

/-- For non-negative bounds `a ≤ b`, the remainder of the text from `a`
splits into the slice `t[a:b]` and the remainder from `b`. -/
theorem drop_slice_decomp (t : List Char) (a b : Int) (ha : 0 ≤ a) (hab : a ≤ b) :
    t.drop a.toNat = TextChunker.pySlice t a b ++ t.drop b.toNat := by
  have hb : 0 ≤ b := le_trans ha hab
  unfold TextChunker.pySlice
  simp only [if_neg (by omega : ¬ a < 0), if_neg (by omega : ¬ b < 0)]
  by_cases hblen : b.toNat ≤ t.length
  · have haN : a.toNat ≤ t.length := by omega
    have h1 : (min a (t.length : Int)).toNat = a.toNat := by omega
    have h2 : (min b (t.length : Int)).toNat = b.toNat := by omega
    rw [h1, h2]
    conv_lhs => rw [← List.take_append_drop (b.toNat - a.toNat) (t.drop a.toNat)]
    rw [List.drop_drop]
    congr 2
    omega
  · by_cases halen : a.toNat ≤ t.length
    · have h1 : (min a (t.length : Int)).toNat = a.toNat := by omega
      have h2 : (min b (t.length : Int)).toNat = t.length := by omega
      rw [h1, h2]
      have hdb : t.drop b.toNat = [] := List.drop_eq_nil_of_le (le_of_not_le hblen)
      rw [hdb, List.append_nil]
      exact (List.take_of_length_le (by rw [List.length_drop])).symm
    · have h1 : (min a (t.length : Int)).toNat = t.length := by omega
      have h2 : (min b (t.length : Int)).toNat = t.length := by omega
      rw [h1, h2]
      have hda : t.drop a.toNat = [] := List.drop_eq_nil_of_le (le_of_not_le halen)
      have hdb : t.drop b.toNat = [] := List.drop_eq_nil_of_le (le_of_not_le hblen)
      have hdl : t.drop t.length = [] := List.drop_eq_nil_of_le (le_refl _)
      rw [hda, hdb, hdl]
      simp

/-- The length of a slice with in-range non-negative bounds. -/
theorem pySlice_length (t : List Char) (a b : Int) (ha : 0 ≤ a) (hab : a ≤ b)
    (hb : b ≤ (t.length : Int)) :
    ((TextChunker.pySlice t a b).length : Int) = b - a := by
  unfold TextChunker.pySlice
  simp only [if_neg (by omega : ¬ a < 0), if_neg (by omega : ¬ b < 0)]
  have h1 : (min a (t.length : Int)).toNat = a.toNat := by omega
  have h2 : (min b (t.length : Int)).toNat = b.toNat := by omega
  rw [h1, h2, List.length_take, List.length_drop]
  omega

/-- A found `rfind` index leaves room for the two-character pattern. -/
theorem rfindIdx_le {region pat : List Char} {lb : Nat}
    (h : TextChunker.rfindIdx region pat = some lb) :
    lb + pat.length ≤ region.length := by
  unfold TextChunker.rfindIdx at h
  have hmem := mem_of_getLast?_eq h
  rw [List.mem_filter] at hmem
  obtain ⟨hrange, hocc⟩ := hmem
  unfold TextChunker.occursAt at hocc
  have hpre := List.isPrefixOf_iff_prefix.mp hocc
  have hlen := hpre.length_le
  rw [List.length_drop] at hlen
  rw [List.mem_range] at hrange
  omega

/-- A found sentence boundary leaves room for its two characters. -/
theorem firstBoundary_le {region : List Char} {lb : Nat}
    (h : TextChunker.firstBoundary region = some lb) : lb + 2 ≤ region.length := by
  unfold TextChunker.firstBoundary TextChunker.sentenceBoundaries at h
  rw [List.findSome?_cons] at h
  rcases h1 : TextChunker.rfindIdx region ['.', ' '] with _ | v
  · rw [h1] at h
    rw [List.findSome?_cons] at h
    rcases h2 : TextChunker.rfindIdx region ['.', '\n'] with _ | v
    · rw [h2] at h
      rw [List.findSome?_cons] at h
      rcases h3 : TextChunker.rfindIdx region ['?', ' '] with _ | v
      · rw [h3] at h
        rw [List.findSome?_cons] at h
        rcases h4 : TextChunker.rfindIdx region ['!', ' '] with _ | v
        · rw [h4] at h
          simp at h
        · rw [h4] at h
          injection h with h
          rw [← h]
          exact rfindIdx_le h4
      · rw [h3] at h
        injection h with h
        rw [← h]
        exact rfindIdx_le h3
    · rw [h2] at h
      injection h with h
      rw [← h]
      exact rfindIdx_le h2
  · rw [h1] at h
    injection h with h
    rw [← h]
    exact rfindIdx_le h1

/-- With no detected code blocks, the window end is set by the sentence
search alone. -/
theorem chunkEnd_no_blocks (cfg : TextChunker.Config) (t : List Char) (start : Int) :
    TextChunker.chunkEnd cfg t [] start =
      if start + (cfg.chunk_size : Int) < (t.length : Int) then
        (match TextChunker.firstBoundary (TextChunker.pySlice t
            (start + (cfg.chunk_size : Int) - (cfg.chunk_size / 5 : Nat))
            (start + (cfg.chunk_size : Int))) with
         | some lb => start + (cfg.chunk_size : Int) - (cfg.chunk_size / 5 : Nat) + lb + 1
         | none => start + (cfg.chunk_size : Int))
      else start + (cfg.chunk_size : Int) := by
  unfold TextChunker.chunkEnd TextChunker.is_inside_code_block
  simp only [List.any_nil, Bool.false_eq_true, if_false]

/-- The window-end facts needed by the loop induction, with no code blocks:
the end is past `start + overlap`, and stays inside the text when the raw
window did. -/
theorem chunkEnd_facts (cfg : TextChunker.Config) (t : List Char) (start : Int)
    (h1 : cfg.overlap < cfg.chunk_size)
    (h2 : cfg.overlap ≤ cfg.chunk_size - cfg.chunk_size / 5) (hs : 0 ≤ start) :
    start + (cfg.overlap : Int) < TextChunker.chunkEnd cfg t [] start ∧
    (start + (cfg.chunk_size : Int) < (t.length : Int) →
      TextChunker.chunkEnd cfg t [] start < (t.length : Int)) := by
  have hd5 : cfg.chunk_size / 5 ≤ cfg.chunk_size := Nat.div_le_self _ _
  have hov : (cfg.overlap : Int) ≤ (cfg.chunk_size : Int) - (cfg.chunk_size / 5 : Nat) := by
    have := h2
    omega
  rw [chunkEnd_no_blocks]
  by_cases hlt : start + (cfg.chunk_size : Int) < (t.length : Int)
  · rw [if_pos hlt]
    rcases hfb : TextChunker.firstBoundary (TextChunker.pySlice t
        (start + (cfg.chunk_size : Int) - (cfg.chunk_size / 5 : Nat))
        (start + (cfg.chunk_size : Int))) with _ | lb
    · constructor
      · show start + (cfg.overlap : Int) < start + (cfg.chunk_size : Int)
        omega
      · intro _
        show start + (cfg.chunk_size : Int) < (t.length : Int)
        exact hlt
    · have hle := firstBoundary_le hfb
      have hlen : ((TextChunker.pySlice t
          (start + (cfg.chunk_size : Int) - (cfg.chunk_size / 5 : Nat))
          (start + (cfg.chunk_size : Int))).length : Int) =
          (cfg.chunk_size / 5 : Nat) := by
        rw [pySlice_length t _ _ (by omega) (by omega) (by omega)]
        omega
      have hlb : (lb : Int) + 2 ≤ (cfg.chunk_size / 5 : Nat) := by
        have : ((lb + 2 : Nat) : Int) ≤ ((TextChunker.pySlice t
            (start + (cfg.chunk_size : Int) - (cfg.chunk_size / 5 : Nat))
            (start + (cfg.chunk_size : Int))).length : Int) := by
          exact_mod_cast hle
        omega
      constructor
      · show start + (cfg.overlap : Int) <
          start + (cfg.chunk_size : Int) - ((cfg.chunk_size / 5 : Nat) : Int) + (lb : Int) + 1
        omega
      · intro _
        show start + (cfg.chunk_size : Int) - ((cfg.chunk_size / 5 : Nat) : Int) + (lb : Int) + 1 <
          (t.length : Int)
        omega
  · rw [if_neg hlt]
    constructor
    · omega
    · intro h
      exact absurd h hlt

/-- The count-preservation invariant of the `chunk` while-loop, with no code
blocks: every non-whitespace character of the remaining text survives into
the concatenated emitted chunks. -/
theorem chunkLoop_count (cfg : TextChunker.Config) (h1 : cfg.overlap < cfg.chunk_size)
    (h2 : cfg.overlap ≤ cfg.chunk_size - cfg.chunk_size / 5)
    {M : Type} (m : M) (t : List Char) (c : Char) (hc : c.isWhitespace = false) :
    ∀ (fuel : Nat) (start : Int), 0 ≤ start → (t.length : Int) - start ≤ fuel →
      (t.drop start.toNat).count c ≤
        (((TextChunker.chunkLoop cfg m t [] start fuel).map (fun p => p.text)).flatten).count c := by
  intro fuel
  induction fuel with
  | zero =>
    intro start hs hfuel
    rw [List.drop_eq_nil_of_le (by omega)]
    rw [List.count_nil]
    exact Nat.zero_le _
  | succ fuel ih =>
    intro start hs hfuel
    by_cases hlt : start < (t.length : Int)
    · simp only [TextChunker.chunkLoop, if_pos hlt]
      obtain ⟨hov, hin⟩ := chunkEnd_facts cfg t start h1 h2 hs
      set e := TextChunker.chunkEnd cfg t [] start with he
      set nxt : Int := if e < (t.length : Int) then e - (cfg.overlap : Int) else e with hnxt
      have hse : start ≤ e := by omega
      have hnxt0 : 0 ≤ nxt := by
        rw [hnxt]
        split <;> omega
      have hnxtle : nxt ≤ e := by
        rw [hnxt]
        split <;> omega
      have hfuel2 : (t.length : Int) - nxt ≤ fuel := by
        rw [hnxt]
        by_cases hel : e < (t.length : Int)
        · rw [if_pos hel]
          omega
        · rw [if_neg hel]
          omega
      have hdecomp : t.drop start.toNat = TextChunker.pySlice t start e ++ t.drop e.toNat :=
        drop_slice_decomp t start e hs hse
      have hdecomp2 : t.drop nxt.toNat = TextChunker.pySlice t nxt e ++ t.drop e.toNat :=
        drop_slice_decomp t nxt e hnxt0 hnxtle
      have hmono : (t.drop e.toNat).count c ≤ (t.drop nxt.toNat).count c := by
        rw [hdecomp2, List.count_append]
        omega
      have hstrip : (TextChunker.stripChars (TextChunker.pySlice t start e)).count c =
          (TextChunker.pySlice t start e).count c := count_stripChars_eq _ c hc
      have hih := ih nxt hnxt0 hfuel2
      rw [hdecomp, List.count_append]
      by_cases hempty : (TextChunker.stripChars (TextChunker.pySlice t start e)).isEmpty = true
      · rw [if_pos hempty]
        have hzero : (TextChunker.pySlice t start e).count c = 0 := by
          rw [← hstrip, List.isEmpty_iff.mp hempty, List.count_nil]
        omega
      · rw [if_neg hempty]
        simp only [List.map_cons, List.flatten_cons, List.count_append]
        omega
    · rw [TextChunker.chunkLoop]
      rw [if_neg hlt]
      rw [List.drop_eq_nil_of_le (by omega), List.count_nil]
      exact Nat.zero_le _

/-- Claim C7 (counterexample): the claim says concatenating the chunk texts
with the overlapping regions removed reconstructs `T` with no character
dropped. With `chunk_size = 4, overlap = 1` and `T = "abc abc"` the chunker
emits `["abc", "abc"]`: each window is stripped, the space at the window
boundary survives in neither chunk, and no removal of overlaps can
reconstruct `T`. -/
theorem chunk_reconstruction_counterexample :
    ((TextChunker.chunk { chunk_size := 4, overlap := 1 } () ("abc abc").toList).map
      (fun p => p.text)) = [("abc").toList, ("abc").toList] ∧
    concatWithoutOverlap 1 ((TextChunker.chunk { chunk_size := 4, overlap := 1 } ()
      ("abc abc").toList).map (fun p => p.text)) ≠ ("abc abc").toList ∧
    (' ') ∈ ("abc abc").toList ∧
    (∀ u ∈ (TextChunker.chunk { chunk_size := 4, overlap := 1 } () ("abc abc").toList).map
      (fun p => p.text), (' ') ∉ u) := by
  refine ⟨by decide, by decide, by decide, by decide⟩

/-- Claim C7 (amended): for chunker parameters with
`overlap < chunk_size` and `overlap ≤ chunk_size − chunk_size/5` (the
defaults qualify) and texts in which no code blocks are detected, no
non-whitespace character occurrence of `T` is dropped: each occurs in the
concatenation of the emitted chunk texts at least as often as in
`T.strip()`. Exact reconstruction fails only up to whitespace, since every
window is stripped before emission (see the counterexample). -/
theorem chunk_no_char_loss (cfg : TextChunker.Config) (h1 : cfg.overlap < cfg.chunk_size)
    (h2 : cfg.overlap ≤ cfg.chunk_size - cfg.chunk_size / 5)
    {M : Type} (m : M) (text : List Char)
    (hnb : TextChunker.detect_code_blocks (TextChunker.stripChars text) = [])
    (c : Char) (hc : c.isWhitespace = false) :
    (TextChunker.stripChars text).count c ≤
      (((TextChunker.chunk cfg m text).map (fun p => p.text)).flatten).count c := by
  unfold TextChunker.chunk
  by_cases hemp : (TextChunker.stripChars text).isEmpty = true
  · rw [if_pos hemp]
    rw [List.isEmpty_iff.mp hemp]
    rw [List.count_nil]
    exact Nat.zero_le _
  · rw [if_neg hemp]
    simp only [hnb]
    by_cases hlen : (TextChunker.stripChars text).length ≤ cfg.chunk_size
    · rw [if_pos hlen]
      simp
    · rw [if_neg hlen]
      have h := chunkLoop_count cfg h1 h2 m (TextChunker.stripChars text) c hc
        ((TextChunker.stripChars text).length + 1) 0 (by omega) (by omega)
      simpa using h

/-- Witness for the amended C7: the counterexample input itself loses no
non-whitespace character (both occurrences of `b` survive). -/
theorem chunk_no_char_loss_witness :
    (TextChunker.stripChars ("abc abc").toList).count 'b' ≤
      (((TextChunker.chunk { chunk_size := 4, overlap := 1 } () ("abc abc").toList).map
        (fun p => p.text)).flatten).count 'b' :=
  chunk_no_char_loss { chunk_size := 4, overlap := 1 } (by decide) (by decide) ()
    ("abc abc").toList (by decide) 'b' (by decide)

/-- Witness for the amended C9: on the concrete id `"session-123!"` the
sanitized name starts with a letter, as the theorem guarantees for
non-empty inputs. -/
theorem sanitize_collection_name_spec_witness :
    ∀ c, (ChromaVectorStore._sanitize_collection_name ("session-123!").toList).head? = some c →
      c.isAlpha = true :=
  (sanitize_collection_name_spec ("session-123!").toList).2.2.2.2 (by decide)
